import Mathlib

set_option maxRecDepth 100000

/-! # The thread pool and the radial strip matrix of allpix-squared

Sources: `src/core/module/ThreadPool.cpp` and
`src/core/geometry/RadialStripDetectorModel.hpp`.

A shallow embedding of `ThreadPool`: its members become a record, each worker
thread becomes a small control-state machine whose steps are the atomic
actions of `ThreadPool::worker`, and the operations of the owning thread
(`wait`, `checkException`, `destroy`, the constructor) become functions on
the record.  Blocking calls return `none` (or a `blocks` result) while they
cannot proceed; joins are bounded by a step budget.

`RadialStripDetectorModel::isWithinMatrix` becomes a function into `Except`,
with the 32-bit conversions of its comparisons and the exception of the
checked vector access made explicit.
-/

namespace allpix

/-! ## Tasks and the bounded queue -/

/-- A unit of work.  What a task computes is outside the pool; all the worker
observes of `(*task)(); task->get_future().get();` is whether it returns
(`raises = none`) or throws (`raises = some e`, `e` naming the exception). -/
structure Task where
  id : Nat
  raises : Option Nat
deriving DecidableEq, Repr

/-- Modelled from the spec: the bounded task queue (the queue class of
`ThreadPool.hpp`, which is not among the sources): an ordered sequence of
tasks, a `valid` flag and a fixed capacity. -/
structure SafeQueue where
  queue_ : List Task
  valid_ : Bool
  max_size_ : Nat
deriving DecidableEq, Repr

/-- Result of a blocking `pop`. -/
inductive PopResult where
  | blocks
  | failure
  | success (t : Task) (q : SafeQueue)
deriving DecidableEq, Repr

/-- Result of a blocking `push`. -/
inductive PushResult where
  | blocks
  | rejected
  | accepted (q : SafeQueue)
deriving DecidableEq, Repr

/-- Modelled from the spec: `pop` of the bounded queue, which is missing from
the sources: "blocks while `valid ∧ empty`; on success, removes the head";
"returns failure when `valid=false ∧ empty`".  The dequeue callback is applied
by the caller in the same atomic step. -/
def SafeQueue.pop (q : SafeQueue) : PopResult :=
  match q.queue_ with
  | t :: rest => PopResult.success t { q with queue_ := rest }
  | [] => if q.valid_ then PopResult.blocks else PopResult.failure

/-- Modelled from the spec: `push` of the bounded queue, which is missing from
the sources: "blocks while `valid ∧ full`; rejected (returns failure) once
`valid=false`; otherwise appends to the tail". -/
def SafeQueue.push (t : Task) (q : SafeQueue) : PushResult :=
  if q.valid_ = false then PushResult.rejected
  else if q.max_size_ ≤ q.queue_.length then PushResult.blocks
  else PushResult.accepted { q with queue_ := q.queue_ ++ [t] }

/-- Modelled from the spec: `invalidate` of the bounded queue, which is
missing from the sources: "sets `valid=false` and wakes every thread blocked
in `push`/`pop`; idempotent". -/
def SafeQueue.invalidate (q : SafeQueue) : SafeQueue :=
  { q with valid_ := false }

/-- Modelled from the spec: `empty` of the bounded queue, which is missing
from the sources: a point-in-time snapshot. -/
def SafeQueue.empty (q : SafeQueue) : Bool :=
  q.queue_.isEmpty

/-- Modelled from the spec: `size` of the bounded queue, which is missing
from the sources: current backlog length. -/
def SafeQueue.size (q : SafeQueue) : Nat :=
  q.queue_.length

/-! ## Worker threads -/

/-- Calls a worker makes that are visible outside the loop body. -/
inductive Event where
  | initCall
  | popOk (id : Nat)
  | popFail
  | ran (id : Nat)
  | threw (id : Nat)
  | finalizeCall
deriving DecidableEq, Repr

/-- Control points of `ThreadPool::worker`.  `executing t` holds the dequeued
task, `finishing t` is the point just before `--run_cnt_` with the value of
the local variable `task` of this iteration. -/
inductive Pc where
  | init
  | loopHead
  | popping
  | executing (t : Task)
  | finishing (t : Option Task)
  | finalizing
  | terminated
deriving DecidableEq, Repr

/-- One entry of `threads_`: the thread's control point, the two hooks it was
started with (`true` when the `std::function` is non-empty), whether the
`std::thread` is joinable, how often it has been joined, and its call log. -/
structure Worker where
  pc : Pc
  init_function : Bool
  finalize_function : Bool
  joinable : Bool
  joins : Nat
  log : List Event
deriving DecidableEq, Repr

/-- The members of `ThreadPool`.  `run_cnt_` is kept as a mathematical
integer, so that a decrement below zero is visible as a negative value. -/
structure ThreadPool where
  queue_ : SafeQueue
  done_ : Bool
  run_cnt_ : Int
  has_exception_ : Bool
  exception_ptr_ : Option Nat
  threads_ : List Worker
deriving DecidableEq, Repr

/-- The lambda `increase_run_cnt_func`: `++run_cnt_`. -/
def increase_run_cnt_func (p : ThreadPool) : ThreadPool :=
  { p with run_cnt_ := p.run_cnt_ + 1 }

/-- The `catch(...)` block of the worker, for a task that threw `e`:
`has_exception_.test_and_set()` sets the flag and yields its previous value;
when that value is `true` the exception is stored and the queue invalidated. -/
def catch_handler (e : Nat) (p : ThreadPool) : ThreadPool :=
  let previous := p.has_exception_
  let p1 := { p with has_exception_ := true }
  if previous then
    { p1 with exception_ptr_ := some e, queue_ := p1.queue_.invalidate }
  else p1

/-- One atomic action of `ThreadPool::worker`, on the shared members and the
thread's own record.  A thread blocked in `pop` does not move. -/
def worker_step (p : ThreadPool) (w : Worker) : ThreadPool × Worker :=
  match w.pc with
  | Pc.init =>
      (p, { w with pc := Pc.loopHead,
                   log := w.log ++ (if w.init_function then [Event.initCall] else []) })
  | Pc.loopHead =>
      if p.done_ then (p, { w with pc := Pc.finalizing })
      else (p, { w with pc := Pc.popping })
  | Pc.popping =>
      match p.queue_.pop with
      | PopResult.blocks => (p, w)
      | PopResult.failure =>
          (p, { w with pc := Pc.finishing none, log := w.log ++ [Event.popFail] })
      | PopResult.success t q =>
          (increase_run_cnt_func { p with queue_ := q },
            { w with pc := Pc.executing t, log := w.log ++ [Event.popOk t.id] })
  | Pc.executing t =>
      match t.raises with
      | none => (p, { w with pc := Pc.finishing (some t), log := w.log ++ [Event.ran t.id] })
      | some e =>
          (catch_handler e p,
            { w with pc := Pc.finishing (some t), log := w.log ++ [Event.threw t.id] })
  | Pc.finishing _ =>
      ({ p with run_cnt_ := p.run_cnt_ - 1 }, { w with pc := Pc.loopHead })
  | Pc.finalizing =>
      (p, { w with pc := Pc.terminated,
                   log := w.log ++ (if w.finalize_function then [Event.finalizeCall] else []) })
  | Pc.terminated => (p, w)

/-- Thread `i` of the pool performs one action. -/
def stepThread (i : Nat) (p : ThreadPool) : ThreadPool :=
  match p.threads_[i]? with
  | none => p
  | some w =>
      let r := worker_step p w
      { r.1 with threads_ := r.1.threads_.set i r.2 }

/-- Number of tasks a worker has dequeued and not yet finished. -/
def Worker.inFlight (w : Worker) : Nat :=
  match w.pc with
  | Pc.executing _ => 1
  | Pc.finishing (some _) => 1
  | _ => 0

/-- Number of tasks dequeued and not yet finished, over all workers. -/
def ThreadPool.inFlight (p : ThreadPool) : Nat :=
  (p.threads_.map Worker.inFlight).sum

/-! ## Operations of the owning thread -/

/-- A thread as `threads_.emplace_back(&ThreadPool::worker, ...)` creates it. -/
def Worker.spawned (init_function finalize_function : Bool) : Worker :=
  { pc := Pc.init, init_function := init_function, finalize_function := finalize_function,
    joinable := true, joins := 0, log := [] }

/-- Whether thread `i` has run to the end of `ThreadPool::worker` (an index
without a thread has nothing left to run). -/
def threadDone (i : Nat) (p : ThreadPool) : Bool :=
  match p.threads_[i]? with
  | none => true
  | some w => decide (w.pc = Pc.terminated)

/-- Run thread `i` until it has terminated; `none` when the step budget is
used up first (the thread is still running or blocked). -/
def runThread : Nat → Nat → ThreadPool → Option ThreadPool
  | 0, i, p => if threadDone i p then some p else none
  | f + 1, i, p => if threadDone i p then some p else runThread f i (stepThread i p)

/-- Bookkeeping of `thread.join()` once the thread has terminated. -/
def markJoined (i : Nat) (p : ThreadPool) : ThreadPool :=
  match p.threads_[i]? with
  | none => p
  | some w =>
    { p with threads_ := p.threads_.set i { w with joinable := false, joins := w.joins + 1 } }

/-- The call `thread.join()` on thread `i`: blocks until the thread has
terminated.  The joined thread runs on its own; the other threads stay where
they are until it has terminated. -/
def join (fuel i : Nat) (p : ThreadPool) : Option ThreadPool :=
  (runThread fuel i p).map (markJoined i)

/-- The loop `for(auto& thread : threads_) if(thread.joinable()) thread.join();`
over the listed thread indices. -/
def joinAll (fuel : Nat) : List Nat → ThreadPool → Option ThreadPool
  | [], p => some p
  | i :: rest, p =>
    match p.threads_[i]? with
    | none => joinAll fuel rest p
    | some w =>
      if w.joinable then (join fuel i p).bind (joinAll fuel rest)
      else joinAll fuel rest p

/-- The method `ThreadPool::destroy`. -/
def ThreadPool.destroy (fuel : Nat) (p : ThreadPool) : Option ThreadPool :=
  let p1 := { p with done_ := true }
  let p2 := { p1 with queue_ := p1.queue_.invalidate }
  joinAll fuel (List.range p2.threads_.length) p2

/-- The method `ThreadPool::checkException`: the pool afterwards and the
exception raised to the caller, if any. -/
def ThreadPool.checkException (fuel : Nat) (p : ThreadPool) :
    Option (ThreadPool × Option Nat) :=
  match p.exception_ptr_ with
  | some _ => (ThreadPool.destroy fuel p).map fun p' => (p', p'.exception_ptr_)
  | none => some (p, none)

/-- The predicate `wait` sleeps on. -/
def waitPredicate (p : ThreadPool) : Bool :=
  p.exception_ptr_.isSome || (p.queue_.empty && p.run_cnt_ == 0)

/-- The method `ThreadPool::wait`: the condition variable re-evaluates the
predicate on the pool states the other threads produce, one per wake-up, and
returns at the first that satisfies it; `none` while it is still blocked. -/
def ThreadPool.wait : List ThreadPool → Option ThreadPool
  | [] => none
  | p :: later => if waitPredicate p then some p else ThreadPool.wait later

/-- The method `ThreadPool::queueSize`. -/
def ThreadPool.queueSize (p : ThreadPool) : Nat :=
  p.queue_.size

/-- Modelled from the spec: `submit`, a template of `ThreadPool.hpp`, which is
not among the sources: "wraps `callable` as a Task, `push`es it (subject to
backpressure), fails if the queue is invalid". -/
def ThreadPool.submit (t : Task) (p : ThreadPool) : PushResult × ThreadPool :=
  match p.queue_.push t with
  | PushResult.accepted q => (PushResult.accepted q, { p with queue_ := q })
  | r => (r, p)

/-- The destructor `ThreadPool::~ThreadPool`. -/
def ThreadPool.destructor (fuel : Nat) (p : ThreadPool) : Option ThreadPool :=
  ThreadPool.destroy fuel p

/-- Modelled from the spec: the state of the members when the constructor body
starts, from the member initialisers of `ThreadPool.hpp`, which is not among
the sources: an empty valid queue of the given capacity, `done=false`, an
empty one-shot fault slot, no thread yet. -/
def ThreadPool.members (max_queue_size : Nat) : ThreadPool :=
  { queue_ := { queue_ := [], valid_ := true, max_size_ := max_queue_size },
    done_ := false, run_cnt_ := 0, has_exception_ := false, exception_ptr_ := none,
    threads_ := [] }

/-- The listed threads perform one action each, in order. -/
def runSteps : List Nat → ThreadPool → ThreadPool
  | [], p => p
  | i :: rest, p => runSteps rest (stepThread i p)

/-- The `for` loop of the constructor inside its `try` block, with `k`
threads still to create, followed by `run_cnt_ = 0`.  `spawn_error i` is the
exception `emplace_back` throws for thread `i`, if any; `sched i` are the
actions the threads created so far perform before the next creation.  The
`catch(...)` block calls `destroy()` and rethrows.  The result is the pool and
the exception that leaves the constructor, if any. -/
def spawnLoop (fuel : Nat) (init_function finalize_function : Bool)
    (spawn_error : Nat → Option Nat) (sched : Nat → List Nat) :
    Nat → Nat → ThreadPool → Option (ThreadPool × Option Nat)
  | 0, _, p => some ({ p with run_cnt_ := 0 }, none)
  | k + 1, i, p =>
    match spawn_error i with
    | some e => (ThreadPool.destroy fuel p).map fun p' => (p', some e)
    | none =>
      spawnLoop fuel init_function finalize_function spawn_error sched k (i + 1)
        (runSteps (sched i)
          { p with threads_ := p.threads_ ++ [Worker.spawned init_function finalize_function] })

/-- The constructor `ThreadPool::ThreadPool`. -/
def ThreadPool.constructor (fuel num_threads max_queue_size : Nat)
    (worker_init_function worker_finalize_function : Bool)
    (spawn_error : Nat → Option Nat) (sched : Nat → List Nat) :
    Option (ThreadPool × Option Nat) :=
  spawnLoop fuel worker_init_function worker_finalize_function spawn_error sched
    num_threads 0 (ThreadPool.members max_queue_size)

/-- A pool constructed without spawn failure, before any thread has moved. -/
def ThreadPool.fresh (num_threads max_queue_size : Nat)
    (worker_init_function worker_finalize_function : Bool) : ThreadPool :=
  { ThreadPool.members max_queue_size with
    threads_ := List.replicate num_threads
      (Worker.spawned worker_init_function worker_finalize_function) }

/-- What the threads of a program do between the calls of the owning thread:
a worker action or a submission. -/
inductive Op where
  | step (i : Nat)
  | submit (t : Task)
deriving DecidableEq, Repr

/-- Effect of one operation; a submission that blocks or is rejected leaves
the pool as it is. -/
def applyOp (o : Op) (p : ThreadPool) : ThreadPool :=
  match o with
  | Op.step i => stepThread i p
  | Op.submit t => (ThreadPool.submit t p).2

/-- Effect of a sequence of operations. -/
def runOps : List Op → ThreadPool → ThreadPool
  | [], p => p
  | o :: rest, p => runOps rest (applyOp o p)

/-! ## Runs of one worker and batches -/

/-- Whether an event is a call of the init or the finalize hook. -/
def Event.isHook : Event → Bool
  | Event.initCall => true
  | Event.finalizeCall => true
  | _ => false

/-- The log entry of a hook call: the call when the hook is non-empty,
nothing when it is empty. -/
def hookLog (present : Bool) (e : Event) : List Event :=
  if present then [e] else []

/-- The log entries of one loop iteration that dequeues and runs `t`. -/
def taskEvents (t : Task) : List Event :=
  [Event.popOk t.id, if t.raises.isSome then Event.threw t.id else Event.ran t.id]

/-- A run of one worker while the other threads change the members: each
entry is an action of the worker itself (`none`) or the members as the other
threads have left them (`some p'`). -/
def workerRun : List (Option ThreadPool) → ThreadPool → Worker → ThreadPool × Worker
  | [], p, w => (p, w)
  | none :: rest, p, w => workerRun rest (worker_step p w).1 (worker_step p w).2
  | some p' :: rest, _, w => workerRun rest p' w

/-- The members as another thread may leave them: `done_` set, queue empty. -/
def doneMembers : ThreadPool :=
  { ThreadPool.members 0 with done_ := true }

/-- A schedule on which a worker alone processes `n` queued tasks, then finds
`done_` set and runs to its end. -/
def soloSched (n : Nat) : List (Option ThreadPool) :=
  none :: (List.replicate (4 * n) none ++ [some doneMembers, none, none])

/-- A pool whose queue holds the tasks `ts`, nothing else having happened. -/
def queued (ts : List Task) (cap : Nat) : ThreadPool :=
  { ThreadPool.members cap with queue_ := { queue_ := ts, valid_ := true, max_size_ := cap } }

/-- The tasks of a batch are submitted one after the other. -/
def submitAll : List Task → ThreadPool → ThreadPool
  | [], p => p
  | t :: ts, p => submitAll ts (ThreadPool.submit t p).2

/-- Whether every submission of the batch is accepted. -/
def acceptsAll : List Task → ThreadPool → Bool
  | [], _ => true
  | t :: ts, p =>
    match (ThreadPool.submit t p).1 with
    | PushResult.accepted _ => acceptsAll ts (ThreadPool.submit t p).2
    | _ => false

/-- The pool after the batch `ts` has been submitted and thread `i` has then
performed `2 + 4 * n` actions, `n` the size of the batch. -/
def afterBatch (i : Nat) (ts : List Task) (p : ThreadPool) : ThreadPool :=
  runSteps (List.replicate (2 + 4 * ts.length) i) (submitAll ts p)

/-! ## Predicates on pool states -/

/-- Upper bound on the actions a worker still performs before it has
terminated, once `done_` is set and the queue is invalid. -/
def Pc.rank : Pc → Nat
  | Pc.terminated => 0
  | Pc.finalizing => 1
  | Pc.loopHead => 2
  | Pc.init => 3
  | Pc.finishing _ => 3
  | Pc.executing _ => 4
  | Pc.popping => 5

/-- What every worker action keeps: `done_`, an invalid queue stays invalid,
the number of threads, a recorded fault stays recorded. -/
def Keeps (p p' : ThreadPool) : Prop :=
  p'.done_ = p.done_ ∧ (p.queue_.valid_ = false → p'.queue_.valid_ = false) ∧
    p'.threads_.length = p.threads_.length ∧
    (p.exception_ptr_.isSome = true → p'.exception_ptr_.isSome = true)

/-- A worker that has seen `pop` fail while `done_` is false keeps running the
loop: at `loopHead`, at `pop`, or just after a failed `pop`. -/
def Spinning (i : Nat) (p : ThreadPool) : Prop :=
  p.done_ = false ∧ p.queue_.queue_ = [] ∧ p.queue_.valid_ = false ∧
    ∃ w, p.threads_[i]? = some w ∧
      (w.pc = Pc.loopHead ∨ w.pc = Pc.popping ∨ w.pc = Pc.finishing none)

/-- Every thread of the pool is joinable and has not been joined: the state
of `threads_` while the constructor runs. -/
def AllJoinable (p : ThreadPool) : Prop :=
  ∀ (j : Nat) (w : Worker), p.threads_[j]? = some w → w.joinable = true ∧ w.joins = 0

/-- Shape of a worker's call log at each control point: empty before the init
hook; the init hook call and then loop events only, while in the loop or about
to finalize; with the finalize hook call at the very end once terminated. -/
def LogShape (w : Worker) : Prop :=
  match w.pc with
  | Pc.init => w.log = []
  | Pc.terminated =>
      ∃ body, w.log = hookLog w.init_function Event.initCall ++ body ++
          hookLog w.finalize_function Event.finalizeCall ∧
        ∀ e ∈ body, e.isHook = false
  | _ =>
      ∃ body, w.log = hookLog w.init_function Event.initCall ++ body ∧
        ∀ e ∈ body, e.isHook = false

/-- What holds in every state that worker actions and submissions reach from
a freshly constructed pool: `done_` is clear; an invalid queue comes with a
recorded fault; no worker has left its loop; and while the queue is valid
`run_cnt_` counts the tasks in flight and no `pop` has failed. -/
def Inv (p : ThreadPool) : Prop :=
  p.done_ = false ∧
    (p.queue_.valid_ = false → p.exception_ptr_.isSome = true) ∧
    (∀ w ∈ p.threads_, w.pc ≠ Pc.finalizing ∧ w.pc ≠ Pc.terminated) ∧
    (p.queue_.valid_ = true →
      p.run_cnt_ = (p.inFlight : Int) ∧ ∀ w ∈ p.threads_, w.pc ≠ Pc.finishing none)

/-- Thread `i` is about to call `pop` with log `base`, in a pool that is not
done, has a valid queue holding `ts`, no task in flight and no fault. -/
def AtPop (i : Nat) (p : ThreadPool) (ts : List Task) (base : List Event) : Prop :=
  p.done_ = false ∧ p.queue_.valid_ = true ∧ p.queue_.queue_ = ts ∧ p.run_cnt_ = 0 ∧
    p.exception_ptr_ = none ∧
    ∃ w, p.threads_[i]? = some w ∧ w.pc = Pc.popping ∧ w.log = base

/-- No task that is being run or still queued throws. -/
def Quiet (p : ThreadPool) : Prop :=
  (∀ w ∈ p.threads_, ∀ t, w.pc = Pc.executing t → t.raises = none) ∧
    ∀ t ∈ p.queue_.queue_, t.raises = none

/-! ## Concrete runs -/

/-- A task that returns normally. -/
def taskOk (id : Nat) : Task := { id := id, raises := none }

/-- A task that throws the exception `e`. -/
def taskThrow (id e : Nat) : Task := { id := id, raises := some e }

/-- Thread `i` performs `n` actions. -/
def steps (i n : Nat) : List Op := List.replicate n (Op.step i)

/-- The scenario "capacity=2, workers=2; submit T1 (succeeds), T2 (fails
immediately), T3, T4 (succeed)": thread 0 dequeues T1 and is still running it
while thread 1 dequeues T2, T3 and T4 are submitted, thread 1 runs T2, T3 and
T4, and thread 0 finishes T1. -/
def scenarioT2 : ThreadPool :=
  runOps ([Op.submit (taskOk 1), Op.submit (taskThrow 2 22)] ++ steps 0 3 ++ steps 1 3 ++
      [Op.submit (taskOk 3), Op.submit (taskOk 4)] ++ steps 1 10 ++ steps 0 3)
    (ThreadPool.fresh 2 2 false false)

/-- One worker, two failing tasks: the worker runs both and is back at `pop`. -/
def afterTwoFaults : ThreadPool :=
  runOps ([Op.submit (taskThrow 1 11), Op.submit (taskThrow 2 22)] ++ steps 0 10)
    (ThreadPool.fresh 1 2 true true)

/-- Three workers have each dequeued one of three failing tasks. -/
def threeDequeued : ThreadPool :=
  runOps ([Op.submit (taskThrow 1 11), Op.submit (taskThrow 2 22), Op.submit (taskThrow 3 33)] ++
      steps 0 3 ++ steps 1 3 ++ steps 2 3)
    (ThreadPool.fresh 3 3 false false)

/-- Three workers have run one failing task each and wait at the loop head;
the fault of the last one is recorded. -/
def afterThreeFaults : ThreadPool :=
  runOps (steps 0 2 ++ steps 1 2 ++ steps 2 2) threeDequeued

/-- Of three workers that have each dequeued a failing task, the first two
have run theirs and are back at `pop`: the second task's fault (22) is
recorded; the third worker is still running its task, which will throw 33. -/
def secondFaultStored : ThreadPool :=
  runOps (steps 0 3 ++ steps 1 3) threeDequeued

/-- Thread creation that fails for thread `i` only, with exception `e`. -/
def failAt (i e : Nat) : Nat → Option Nat :=
  fun j => if j = i then some e else none

/-- A schedule for the constructor: after each creation thread 0 performs
three actions and thread 1 one. -/
def eagerSched : Nat → List Nat :=
  fun _ => [0, 0, 0, 1]

/-- The operations of a first batch: two succeeding tasks are submitted and
thread 0 runs both. -/
def firstBatchOps : List Op :=
  [Op.submit (taskOk 1), Op.submit (taskOk 2)] ++ steps 0 10

/-- Two workers, a first batch of two succeeding tasks processed by thread 0. -/
def firstBatchDone : ThreadPool :=
  runOps firstBatchOps (ThreadPool.fresh 2 2 true true)

/-- The same pool while thread 0 is still running the first task. -/
def firstBatchRunning : ThreadPool :=
  runOps ([Op.submit (taskOk 1), Op.submit (taskOk 2)] ++ steps 0 3)
    (ThreadPool.fresh 2 2 true true)

/-! ## The radial strip detector model (`src/core/geometry/RadialStripDetectorModel.hpp`) -/

/-- Exceptions of the standard library the geometry code can raise. -/
inductive StdException where
  | out_of_range
deriving DecidableEq, Repr

/-- The conversion `static_cast<int>(u)` of an `unsigned int`: the value
modulo `2^32`, read as a two's-complement 32-bit integer. -/
def static_cast_int (u : Nat) : Int :=
  if u % 2 ^ 32 < 2 ^ 31 then ((u % 2 ^ 32 : Nat) : Int) else ((u % 2 ^ 32 : Nat) : Int) - 2 ^ 32

/-- The conversion `static_cast<unsigned int>(i)` of an `int`: the value
modulo `2^32`. -/
def static_cast_unsigned (i : Int) : Nat :=
  (i % 2 ^ 32).toNat

/-- The checked access `v.at(i)` of a `std::vector<unsigned int>`. -/
def vector_at (v : List Nat) (i : Nat) : Except StdException Nat :=
  match v[i]? with
  | some n => Except.ok n
  | none => Except.error StdException.out_of_range

/-- The members of `RadialStripDetectorModel` that `isWithinMatrix` reads:
`number_of_strips_`, and the row count `getNPixels().y()`, an `unsigned int`
kept by the base class `DetectorModel`, whose header is not among the sources
and which is therefore taken as a given value. -/
structure RadialStripDetectorModel where
  n_pixels_y : Nat
  number_of_strips_ : List Nat
deriving DecidableEq, Repr

/-- The setter `setNumberOfStrips`: replaces `number_of_strips_` and nothing else. -/
def RadialStripDetectorModel.setNumberOfStrips (m : RadialStripDetectorModel)
    (val : List Nat) : RadialStripDetectorModel :=
  { m with number_of_strips_ := val }

/-- The method `isWithinMatrix(const int x, const int y)`: the negation of the
short-circuit disjunction `y < 0 || y >= int(getNPixels().y()) || x < 0 ||
x >= int(number_of_strips_.at(unsigned(y)))`; the checked access is evaluated
only when the first three disjuncts are false, and its exception leaves the
method. -/
def RadialStripDetectorModel.isWithinMatrix (m : RadialStripDetectorModel) (x y : Int) :
    Except StdException Bool :=
  if y < 0 then Except.ok (!true)
  else if y ≥ static_cast_int m.n_pixels_y then Except.ok (!true)
  else if x < 0 then Except.ok (!true)
  else
    match vector_at m.number_of_strips_ (static_cast_unsigned y) with
    | Except.error e => Except.error e
    | Except.ok n => Except.ok (!decide (x ≥ static_cast_int n))

/-- A model with two rows of which only the first has a strip count. -/
def twoRowsOneCount : RadialStripDetectorModel :=
  RadialStripDetectorModel.setNumberOfStrips { n_pixels_y := 2, number_of_strips_ := [] } [5]

/-- A model with one row of `2^31` strips. -/
def hugeRow : RadialStripDetectorModel :=
  { n_pixels_y := 1, number_of_strips_ := [2 ^ 31] }

/-- A model with three rows of 4, 6 and 8 strips. -/
def threeRows : RadialStripDetectorModel :=
  { n_pixels_y := 3, number_of_strips_ := [4, 6, 8] }

/-! ## Counting iterations -/

/-- Whether the action the worker performs next ends with
`run_condition_.notify_all()`: only the decrement at the end of an iteration
does. -/
def Worker.notifies (w : Worker) : Bool :=
  match w.pc with
  | Pc.finishing _ => true
  | _ => false

/-- Whether the next action of thread `i` notifies `wait`. -/
def threadNotifies (i : Nat) (p : ThreadPool) : Bool :=
  match p.threads_[i]? with
  | some w => w.notifies
  | none => false

/-- The pool states in which `wait` is woken while the listed threads perform
one action each: the states right after the notifying actions. -/
def wakeups : List Nat → ThreadPool → List ThreadPool
  | [], _ => []
  | i :: rest, p =>
    if threadNotifies i p then stepThread i p :: wakeups rest (stepThread i p)
    else wakeups rest (stepThread i p)

/-- Whether an operation is a worker action or the submission of a task that
returns normally. -/
def Op.succeeds : Op → Bool
  | Op.step _ => true
  | Op.submit t => t.raises.isNone

/-- Whether an event is a successful `pop`. -/
def Event.isDequeue : Event → Bool
  | Event.popOk _ => true
  | _ => false

/-- Whether an event is a task that returned normally. -/
def Event.isRan : Event → Bool
  | Event.ran _ => true
  | _ => false

/-- Number of tasks the worker has dequeued. -/
def Worker.dequeued (w : Worker) : Nat :=
  w.log.countP Event.isDequeue

/-- Number of tasks the worker has run to a normal return. -/
def Worker.ran (w : Worker) : Nat :=
  w.log.countP Event.isRan

/-- Number of tasks a worker has dequeued and not yet run. -/
def Worker.pending (w : Worker) : Nat :=
  match w.pc with
  | Pc.executing _ => 1
  | _ => 0

/-- Every task a worker has dequeued it has run to a normal return, but for
the one it is about to run. -/
def Tallied (p : ThreadPool) : Prop :=
  ∀ w ∈ p.threads_, w.dequeued = w.ran + w.pending

/-- No fault has been recorded nor will one be by the tasks at hand: the flag
is clear, the slot empty, and no task being run or queued throws. -/
def Clean (p : ThreadPool) : Prop :=
  Quiet p ∧ p.exception_ptr_ = none ∧ p.has_exception_ = false

/-- A batch of `k` tasks that return normally. -/
def noopTasks (k : Nat) : List Task :=
  (List.range k).map taskOk

/-- The scenario "`k` no-op tasks submitted" on a pool whose queue holds them
all: the tasks are submitted and thread 0 then performs `2 + 4 * k` actions. -/
def noopOps (k : Nat) : List Op :=
  (noopTasks k).map Op.submit ++ steps 0 (2 + 4 * k)

/-! ## Basic facts about single steps -/

theorem stepThread_of_none {i : Nat} {p : ThreadPool} (h : p.threads_[i]? = none) :
    stepThread i p = p := by
  simp [stepThread, h]

theorem stepThread_of_some {i : Nat} {p : ThreadPool} {w : Worker}
    (h : p.threads_[i]? = some w) :
    stepThread i p =
      { (worker_step p w).1 with
        threads_ := (worker_step p w).1.threads_.set i (worker_step p w).2 } := by
  simp [stepThread, h]

theorem worker_step_threads (p : ThreadPool) (w : Worker) :
    (worker_step p w).1.threads_ = p.threads_ := by
  unfold worker_step
  split
  · rfl
  · split <;> rfl
  · split <;> simp [increase_run_cnt_func]
  · split
    · rfl
    · simp only [catch_handler]
      split <;> rfl
  · rfl
  · rfl
  · rfl

theorem stepThread_length (i : Nat) (p : ThreadPool) :
    (stepThread i p).threads_.length = p.threads_.length := by
  unfold stepThread
  split
  · rfl
  · simp [worker_step_threads]

theorem runSteps_length (xs : List Nat) (p : ThreadPool) :
    (runSteps xs p).threads_.length = p.threads_.length := by
  induction xs generalizing p with
  | nil => rfl
  | cons i rest ih => simp [runSteps, ih, stepThread_length]

theorem runSteps_append (xs ys : List Nat) (p : ThreadPool) :
    runSteps (xs ++ ys) p = runSteps ys (runSteps xs p) := by
  induction xs generalizing p with
  | nil => rfl
  | cons i rest ih => simp [runSteps, ih]

theorem spinning_step {i : Nat} {p : ThreadPool} (h : Spinning i p) :
    Spinning i (stepThread i p) := by
  obtain ⟨hd, hq, hv, w, hw, hpc⟩ := h
  have hlt : i < p.threads_.length := by
    rcases Nat.lt_or_ge i p.threads_.length with h1 | h1
    · exact h1
    · rw [List.getElem?_eq_none h1] at hw
      cases hw
  rw [stepThread_of_some hw]
  rcases hpc with hpc | hpc | hpc
  · simp [Spinning, worker_step, hpc, hd, hq, hv, hlt]
  · simp [Spinning, worker_step, hpc, hd, hq, hv, hlt, SafeQueue.pop]
  · simp [Spinning, worker_step, hpc, hd, hq, hv, hlt]

theorem spinning_steps {i : Nat} (n : Nat) {p : ThreadPool} (h : Spinning i p) :
    Spinning i (runSteps (List.replicate n i) p) := by
  induction n generalizing p with
  | zero => exact h
  | succ k ih =>
    simp only [List.replicate_succ, runSteps]
    exact ih (spinning_step h)

/-! ## Fault recording -/

/-- C1 (the code at the failing input): a task that throws while no fault has
been recorded (`has_exception_` clear, `exception_ptr_` empty) leaves
`exception_ptr_` empty and the queue as it was, only the flag becomes set; in
the scenario where T2 alone fails, `wait` returns on quiescence, the slot is
empty and `checkException` raises nothing. -/
theorem first_fault_is_not_recorded :
    (∀ (p : ThreadPool) (e : Nat),
      (catch_handler e { p with has_exception_ := false, exception_ptr_ := none }).exception_ptr_
          = none ∧
        (catch_handler e { p with has_exception_ := false, exception_ptr_ := none }).queue_
          = p.queue_ ∧
        (catch_handler e { p with has_exception_ := false, exception_ptr_ := none }).has_exception_
          = true) ∧
      scenarioT2.exception_ptr_ = none ∧
      scenarioT2.queue_.valid_ = true ∧
      (scenarioT2.threads_.map Worker.log).flatten.count (Event.threw 2) = 1 ∧
      ThreadPool.wait [scenarioT2] = some scenarioT2 ∧
      ThreadPool.checkException 5 scenarioT2 = some (scenarioT2, none) := by
  refine ⟨fun p e => by simp [catch_handler], by rfl, by rfl, by rfl, by rfl, by rfl⟩

/-- C4 (the code at the failing input): once the flag is set every further
failure overwrites `exception_ptr_`; with three failing tasks already dequeued
by three workers the slot is empty after the first failure, holds the second
task's exception after the second and the third task's after the third, which
is the one `checkException` raises. -/
theorem later_fault_overwrites_stored_fault :
    (∀ (p : ThreadPool) (e : Nat),
      (catch_handler e { p with has_exception_ := true }).exception_ptr_ = some e) ∧
      (runOps (steps 0 1) threeDequeued).exception_ptr_ = none ∧
      (runOps (steps 0 1 ++ steps 1 1) threeDequeued).exception_ptr_ = some 22 ∧
      (runOps (steps 0 1 ++ steps 1 1 ++ steps 2 1) threeDequeued).exception_ptr_ = some 33 ∧
      (ThreadPool.checkException 5
          (runOps (steps 0 1 ++ steps 1 1 ++ steps 2 1) threeDequeued)).map Prod.snd
        = some (some 33) := by
  refine ⟨fun p e => by simp [catch_handler], by rfl, by rfl, by rfl, by rfl⟩

/-! ## The run counter and the loop exit -/

/-- C3 (the code at the failing input): from a fresh pool with one worker and
two failing tasks, after the worker has run both and then had `pop` fail on
the invalidated queue, `run_cnt_` is `-1` while no task is in flight. -/
theorem run_cnt_drops_below_in_flight :
    afterTwoFaults.run_cnt_ = 0 ∧ afterTwoFaults.inFlight = 0 ∧
      afterTwoFaults.queue_.valid_ = false ∧
      (runOps (steps 0 2) afterTwoFaults).run_cnt_ = -1 ∧
      (runOps (steps 0 2) afterTwoFaults).inFlight = 0 ∧
      (runOps (steps 0 2) afterTwoFaults).threads_.map Worker.log =
        [[Event.initCall, Event.popOk 1, Event.threw 1, Event.popOk 2, Event.threw 2,
          Event.popFail]] := by
  refine ⟨by rfl, by rfl, by rfl, by rfl, by rfl, by rfl⟩

/-- C6 (the code at the failing input): with the queue invalidated by a fault
and `done_` still false, the worker whose `pop` failed decrements `run_cnt_`,
returns to the loop head and calls `pop` again; however many actions it
performs it never reaches the finalize hook. -/
theorem failed_pop_does_not_leave_loop :
    afterTwoFaults.done_ = false ∧ afterTwoFaults.queue_.pop = PopResult.failure ∧
      (runOps (steps 0 1) afterTwoFaults).threads_.map Worker.pc = [Pc.finishing none] ∧
      (runOps (steps 0 2) afterTwoFaults).run_cnt_ = afterTwoFaults.run_cnt_ - 1 ∧
      (runOps (steps 0 3) afterTwoFaults).threads_.map Worker.pc = [Pc.popping] ∧
      ((runOps (steps 0 4) afterTwoFaults).threads_.map Worker.log).flatten.count Event.popFail
        = 2 ∧
      ∀ n : Nat, ∀ w ∈ (runSteps (List.replicate n 0) afterTwoFaults).threads_,
        w.pc ≠ Pc.finalizing ∧ w.pc ≠ Pc.terminated := by
  refine ⟨by rfl, by rfl, by rfl, by rfl, by rfl, by rfl, ?_⟩
  intro n w hw
  have h0 : Spinning 0 afterTwoFaults :=
    ⟨by rfl, by rfl, by rfl, _, by rfl, Or.inr (Or.inl rfl)⟩
  have hlen : (runSteps (List.replicate n 0) afterTwoFaults).threads_.length = 1 := by
    rw [runSteps_length]
    rfl
  obtain ⟨_, _, _, w0, hw0, hpc⟩ := spinning_steps n h0
  match hq : (runSteps (List.replicate n 0) afterTwoFaults).threads_, hlen, hw0, hw with
  | [w1], _, hw0, hw =>
    simp only [List.getElem?_cons_zero, Option.some.injEq] at hw0
    simp only [List.mem_singleton] at hw
    subst hw0
    subst hw
    rcases hpc with h | h | h <;> simp [h]

theorem catch_handler_done (e : Nat) (p : ThreadPool) :
    (catch_handler e p).done_ = p.done_ := by
  cases h : p.has_exception_ <;> simp [catch_handler, h]

theorem catch_handler_threads (e : Nat) (p : ThreadPool) :
    (catch_handler e p).threads_ = p.threads_ := by
  cases h : p.has_exception_ <;> simp [catch_handler, h]

theorem catch_handler_run_cnt (e : Nat) (p : ThreadPool) :
    (catch_handler e p).run_cnt_ = p.run_cnt_ := by
  cases h : p.has_exception_ <;> simp [catch_handler, h]

theorem catch_handler_items (e : Nat) (p : ThreadPool) :
    (catch_handler e p).queue_.queue_ = p.queue_.queue_ := by
  cases h : p.has_exception_ <;> simp [catch_handler, h, SafeQueue.invalidate]

theorem catch_handler_valid (e : Nat) (p : ThreadPool) (hv : p.queue_.valid_ = false) :
    (catch_handler e p).queue_.valid_ = false := by
  cases h : p.has_exception_ <;> simp [catch_handler, h, SafeQueue.invalidate, hv]

theorem pop_success {q q' : SafeQueue} {t : Task} (h : q.pop = PopResult.success t q') :
    q.queue_ = t :: q'.queue_ ∧ q'.valid_ = q.valid_ ∧ q'.max_size_ = q.max_size_ := by
  unfold SafeQueue.pop at h
  split at h
  · rename_i t0 rest hq
    simp only [PopResult.success.injEq] at h
    obtain ⟨rfl, rfl⟩ := h
    exact ⟨hq, rfl, rfl⟩
  · split at h <;> cases h

theorem worker_step_done (p : ThreadPool) (w : Worker) :
    (worker_step p w).1.done_ = p.done_ := by
  unfold worker_step
  repeat' split
  all_goals first | rfl | simp [catch_handler_done, increase_run_cnt_func]

theorem worker_step_valid (p : ThreadPool) (w : Worker) (h : p.queue_.valid_ = false) :
    (worker_step p w).1.queue_.valid_ = false := by
  unfold worker_step
  split
  · exact h
  · split <;> exact h
  · split
    · exact h
    · exact h
    · rename_i t q hq
      simp [increase_run_cnt_func, (pop_success hq).2.1, h]
  · split
    · exact h
    · exact catch_handler_valid _ _ h
  · exact h
  · exact h
  · exact h

theorem worker_step_static (p : ThreadPool) (w : Worker) :
    (worker_step p w).2.joinable = w.joinable ∧ (worker_step p w).2.joins = w.joins ∧
      (worker_step p w).2.init_function = w.init_function ∧
      (worker_step p w).2.finalize_function = w.finalize_function := by
  unfold worker_step
  repeat' split
  all_goals simp

theorem stepThread_get_ne {i j : Nat} (p : ThreadPool) (h : j ≠ i) :
    (stepThread i p).threads_[j]? = p.threads_[j]? := by
  unfold stepThread
  split
  · rfl
  · simp [worker_step_threads, List.getElem?_set_ne (Ne.symm h)]

theorem stepThread_get_self {i : Nat} {p : ThreadPool} {w : Worker}
    (h : p.threads_[i]? = some w) :
    (stepThread i p).threads_[i]? = some (worker_step p w).2 := by
  have hlt : i < p.threads_.length := by
    rcases Nat.lt_or_ge i p.threads_.length with h1 | h1
    · exact h1
    · rw [List.getElem?_eq_none h1] at h
      cases h
  rw [stepThread_of_some h]
  simp [worker_step_threads, hlt]

theorem stepThread_done (i : Nat) (p : ThreadPool) : (stepThread i p).done_ = p.done_ := by
  unfold stepThread
  split
  · rfl
  · simp [worker_step_done]

theorem stepThread_valid (i : Nat) (p : ThreadPool) (h : p.queue_.valid_ = false) :
    (stepThread i p).queue_.valid_ = false := by
  unfold stepThread
  split
  · exact h
  · simp [worker_step_valid _ _ h]

theorem catch_handler_fault (e : Nat) (p : ThreadPool) :
    (catch_handler e p).exception_ptr_.isSome = true ∨
      (catch_handler e p).exception_ptr_ = p.exception_ptr_ := by
  cases h : p.has_exception_ <;> simp [catch_handler, h]

theorem worker_step_fault (p : ThreadPool) (w : Worker)
    (h : p.exception_ptr_.isSome = true) :
    (worker_step p w).1.exception_ptr_.isSome = true := by
  unfold worker_step
  repeat' split
  all_goals first
    | exact h
    | (rcases catch_handler_fault _ p with h1 | h1
       · exact h1
       · rw [h1]; exact h)

theorem Keeps.refl (p : ThreadPool) : Keeps p p :=
  ⟨rfl, fun h => h, rfl, fun h => h⟩

theorem Keeps.trans {p q r : ThreadPool} (h1 : Keeps p q) (h2 : Keeps q r) : Keeps p r :=
  ⟨h2.1.trans h1.1, fun h => h2.2.1 (h1.2.1 h), h2.2.2.1.trans h1.2.2.1,
    fun h => h2.2.2.2 (h1.2.2.2 h)⟩

theorem stepThread_fault (i : Nat) (p : ThreadPool) (h : p.exception_ptr_.isSome = true) :
    (stepThread i p).exception_ptr_.isSome = true := by
  unfold stepThread
  split
  · exact h
  · simp [worker_step_fault _ _ h]

theorem stepThread_keeps (i : Nat) (p : ThreadPool) : Keeps p (stepThread i p) :=
  ⟨stepThread_done i p, stepThread_valid i p, stepThread_length i p, stepThread_fault i p⟩

theorem worker_step_rank (p : ThreadPool) (w : Worker) (hd : p.done_ = true)
    (hv : p.queue_.valid_ = false) (ht : w.pc ≠ Pc.terminated) :
    (worker_step p w).2.pc.rank < w.pc.rank := by
  unfold worker_step
  split
  · rename_i h; simp [h, Pc.rank]
  · rename_i h; simp [h, hd, Pc.rank]
  · rename_i h
    unfold SafeQueue.pop
    cases hq : p.queue_.queue_ <;> simp [h, hv, Pc.rank]
  · rename_i t h
    split <;> simp [h, Pc.rank]
  · rename_i t h; simp [h, Pc.rank]
  · rename_i h; simp [h, Pc.rank]
  · rename_i h; exact absurd h ht

theorem getElem?_lt {i : Nat} {l : List Worker} {w : Worker} (h : l[i]? = some w) :
    i < l.length := by
  rcases Nat.lt_or_ge i l.length with h1 | h1
  · exact h1
  · rw [List.getElem?_eq_none h1] at h
    cases h

theorem threadDone_spec {i : Nat} {p : ThreadPool} (h : threadDone i p = true) :
    ∀ w, p.threads_[i]? = some w → w.pc = Pc.terminated := by
  intro w hw
  simpa [threadDone, hw] using h

theorem threadDone_false {i : Nat} {p : ThreadPool} (h : ¬ threadDone i p = true) :
    ∃ w, p.threads_[i]? = some w ∧ w.pc ≠ Pc.terminated := by
  unfold threadDone at h
  split at h
  · exact absurd rfl h
  · rename_i w hw
    exact ⟨w, hw, by simpa using h⟩

theorem runThread_stop (i : Nat) (p : ThreadPool) :
    Keeps p p ∧ (∀ j, j ≠ i → p.threads_[j]? = p.threads_[j]?) ∧
      ((∀ w, p.threads_[i]? = some w → w.pc = Pc.terminated) →
        ∀ w, p.threads_[i]? = some w →
          ∃ w', p.threads_[i]? = some w' ∧ w'.pc = Pc.terminated ∧
            w'.joinable = w.joinable ∧ w'.joins = w.joins) :=
  ⟨Keeps.refl _, fun _ _ => rfl, fun ht w hw => ⟨w, hw, ht w hw, rfl, rfl⟩⟩

/-- What `runThread` has done when it returns: thread `i` has terminated, its
join bookkeeping is untouched, the other threads have not moved. -/
theorem runThread_spec (fuel i : Nat) (p p' : ThreadPool) (h : runThread fuel i p = some p') :
    Keeps p p' ∧ (∀ j, j ≠ i → p'.threads_[j]? = p.threads_[j]?) ∧
      (∀ w, p.threads_[i]? = some w →
        ∃ w', p'.threads_[i]? = some w' ∧ w'.pc = Pc.terminated ∧
          w'.joinable = w.joinable ∧ w'.joins = w.joins) := by
  induction fuel generalizing p with
  | zero =>
    simp only [runThread] at h
    split at h
    · rename_i ht
      cases h
      exact ⟨Keeps.refl _, fun _ _ => rfl, (runThread_stop i _).2.2 (threadDone_spec ht)⟩
    · cases h
  | succ f ih =>
    simp only [runThread] at h
    split at h
    · rename_i ht
      cases h
      exact ⟨Keeps.refl _, fun _ _ => rfl, (runThread_stop i _).2.2 (threadDone_spec ht)⟩
    · obtain ⟨hk, hne, hself⟩ := ih _ h
      refine ⟨(stepThread_keeps i p).trans hk, ?_, ?_⟩
      · intro j hj
        rw [hne j hj, stepThread_get_ne p hj]
      · intro w hw
        obtain ⟨w2, h2, ht2, hj2, hn2⟩ := hself _ (stepThread_get_self hw)
        have hs := worker_step_static p w
        exact ⟨w2, h2, ht2, hj2.trans hs.1, hn2.trans hs.2.1⟩

/-- With `done_` set and the queue invalid a thread terminates within the
number of actions its control point allows. -/
theorem runThread_total (fuel i : Nat) (p : ThreadPool) (hd : p.done_ = true)
    (hv : p.queue_.valid_ = false)
    (hr : ∀ w, p.threads_[i]? = some w → w.pc.rank ≤ fuel) :
    ∃ p', runThread fuel i p = some p' := by
  induction fuel generalizing p with
  | zero =>
    simp only [runThread]
    split
    · exact ⟨_, rfl⟩
    · rename_i ht
      obtain ⟨w, hw, hne⟩ := threadDone_false ht
      have h0 := hr w hw
      exfalso
      apply hne
      cases hpc : w.pc <;> simp [hpc, Pc.rank] at h0 ⊢
  | succ f ih =>
    simp only [runThread]
    split
    · exact ⟨_, rfl⟩
    · rename_i ht
      obtain ⟨w, hw, hne⟩ := threadDone_false ht
      apply ih
      · rw [stepThread_done]; exact hd
      · exact stepThread_valid i p hv
      · intro w' hw'
        rw [stepThread_get_self hw] at hw'
        cases hw'
        have := worker_step_rank p w hd hv hne
        have := hr w hw
        omega

theorem rank_le_five (pc : Pc) : pc.rank ≤ 5 := by
  cases pc <;> simp [Pc.rank]

theorem markJoined_keeps (i : Nat) (p : ThreadPool) : Keeps p (markJoined i p) := by
  unfold markJoined
  split
  · exact Keeps.refl _
  · exact ⟨rfl, fun h => h, by simp, fun h => h⟩

theorem markJoined_get_ne {i j : Nat} (p : ThreadPool) (h : j ≠ i) :
    (markJoined i p).threads_[j]? = p.threads_[j]? := by
  unfold markJoined
  split
  · rfl
  · simp [List.getElem?_set_ne (Ne.symm h)]

theorem markJoined_get_self {i : Nat} {p : ThreadPool} {w : Worker}
    (h : p.threads_[i]? = some w) :
    (markJoined i p).threads_[i]? = some { w with joinable := false, joins := w.joins + 1 } := by
  have hlt := getElem?_lt h
  simp [markJoined, h, hlt]

/-- What `join` has done when it returns. -/
theorem join_spec (fuel i : Nat) (p p' : ThreadPool) (h : join fuel i p = some p') :
    Keeps p p' ∧ (∀ j, j ≠ i → p'.threads_[j]? = p.threads_[j]?) ∧
      (∀ w, p.threads_[i]? = some w →
        ∃ w', p'.threads_[i]? = some w' ∧ w'.pc = Pc.terminated ∧
          w'.joinable = false ∧ w'.joins = w.joins + 1) := by
  unfold join at h
  cases hr : runThread fuel i p with
  | none => simp [hr] at h
  | some q =>
    simp only [hr, Option.map_some', Option.some.injEq] at h
    subst h
    obtain ⟨hk, hne, hself⟩ := runThread_spec fuel i p q hr
    refine ⟨hk.trans (markJoined_keeps i q), ?_, ?_⟩
    · intro j hj
      rw [markJoined_get_ne q hj, hne j hj]
    · intro w hw
      obtain ⟨w2, h2, ht2, _, hn2⟩ := hself w hw
      exact ⟨_, markJoined_get_self h2, ht2, rfl, by simp [hn2]⟩

/-- What the join loop has done when it returns: every listed thread is no
longer joinable; one that was joinable has terminated and been joined once,
one that was not is untouched, and so is every thread not listed. -/
theorem joinAll_spec (fuel : Nat) (is : List Nat) (p p' : ThreadPool)
    (h : joinAll fuel is p = some p') (hnd : is.Nodup) :
    Keeps p p' ∧ (∀ j, j ∉ is → p'.threads_[j]? = p.threads_[j]?) ∧
      (∀ j, j ∈ is → ∀ w, p.threads_[j]? = some w →
        ∃ w', p'.threads_[j]? = some w' ∧ w'.joinable = false ∧
          (w.joinable = true → w'.pc = Pc.terminated ∧ w'.joins = w.joins + 1) ∧
          (w.joinable = false → w' = w)) := by
  induction is generalizing p with
  | nil =>
    simp only [joinAll, Option.some.injEq] at h
    subst h
    exact ⟨Keeps.refl _, fun _ _ => rfl, fun j hj => by simp at hj⟩
  | cons i rest ih =>
    have hi : i ∉ rest := (List.nodup_cons.mp hnd).1
    have hrest : rest.Nodup := (List.nodup_cons.mp hnd).2
    simp only [joinAll] at h
    split at h
    · rename_i hnone
      obtain ⟨hk, hout, hin⟩ := ih p h hrest
      refine ⟨hk, fun j hj => hout j (fun hm => hj (List.mem_cons_of_mem _ hm)), ?_⟩
      intro j hj w hw
      rcases List.mem_cons.mp hj with rfl | hj'
      · rw [hnone] at hw; cases hw
      · exact hin j hj' w hw
    · rename_i w0 hw0
      split at h
      · rename_i hjoin
        cases hj1 : join fuel i p with
        | none => simp [hj1] at h
        | some q =>
          simp only [hj1, Option.some_bind] at h
          obtain ⟨hk1, hne1, hself1⟩ := join_spec fuel i p q hj1
          obtain ⟨hk, hout, hin⟩ := ih q h hrest
          refine ⟨hk1.trans hk, ?_, ?_⟩
          · intro j hj
            have hji : j ≠ i := fun e => hj (e ▸ List.mem_cons_self _ _)
            rw [hout j (fun hm => hj (List.mem_cons_of_mem _ hm)), hne1 j hji]
          · intro j hj w hw
            rcases List.mem_cons.mp hj with rfl | hj'
            · rw [hw0] at hw
              have hww : w = w0 := (Option.some.inj hw).symm
              rw [hww]
              obtain ⟨w1, h1, ht1, hjn1, hn1⟩ := hself1 _ hw0
              refine ⟨w1, by rw [hout _ hi]; exact h1, hjn1, fun _ => ⟨ht1, hn1⟩, ?_⟩
              intro hf
              rw [hf] at hjoin
              cases hjoin
            · have hji : j ≠ i := fun e => hi (e ▸ hj')
              exact hin j hj' w (by rw [hne1 j hji]; exact hw)
      · rename_i hjoin
        obtain ⟨hk, hout, hin⟩ := ih p h hrest
        refine ⟨hk, fun j hj => hout j (fun hm => hj (List.mem_cons_of_mem _ hm)), ?_⟩
        intro j hj w hw
        rcases List.mem_cons.mp hj with rfl | hj'
        · rw [hw0] at hw
          have hww : w = w0 := (Option.some.inj hw).symm
          rw [hww]
          have hf : w0.joinable = false := by simpa using hjoin
          refine ⟨w0, by rw [hout _ hi]; exact hw0, hf, ?_, fun _ => rfl⟩
          intro ht
          rw [hf] at ht
          cases ht
        · exact hin j hj' w hw

/-- With `done_` set and the queue invalid the join loop returns when each
join may take five actions. -/
theorem joinAll_total (fuel : Nat) (is : List Nat) (p : ThreadPool) (hf : 5 ≤ fuel)
    (hd : p.done_ = true) (hv : p.queue_.valid_ = false) :
    ∃ p', joinAll fuel is p = some p' := by
  induction is generalizing p with
  | nil => exact ⟨p, rfl⟩
  | cons i rest ih =>
    simp only [joinAll]
    split
    · exact ih p hd hv
    · split
      · obtain ⟨q, hq⟩ := runThread_total fuel i p hd hv
          (fun w _ => le_trans (rank_le_five w.pc) hf)
        have hj : join fuel i p = some (markJoined i q) := by simp [join, hq]
        obtain ⟨hk, _, _⟩ := join_spec fuel i p _ hj
        rw [hj]
        simp only [Option.some_bind]
        exact ih _ (by rw [hk.1]; exact hd) (hk.2.1 hv)
      · exact ih p hd hv

/-- A join loop over threads none of which is joinable does nothing. -/
theorem joinAll_of_not_joinable (fuel : Nat) (is : List Nat) (p : ThreadPool)
    (h : ∀ w ∈ p.threads_, w.joinable = false) : joinAll fuel is p = some p := by
  induction is with
  | nil => rfl
  | cons i rest ih =>
    simp only [joinAll]
    split
    · exact ih
    · rename_i w hw
      have := h w (List.getElem?_mem hw)
      simp [this, ih]

/-- What `destroy` has done when it returns. -/
theorem destroy_result (fuel : Nat) (p p' : ThreadPool) (h : ThreadPool.destroy fuel p = some p') :
    p'.done_ = true ∧ p'.queue_.valid_ = false ∧ p'.threads_.length = p.threads_.length ∧
      (p.exception_ptr_.isSome = true → p'.exception_ptr_.isSome = true) ∧
      (∀ (j : Nat) (w : Worker), p.threads_[j]? = some w →
        ∃ w', p'.threads_[j]? = some w' ∧ w'.joinable = false ∧
          (w.joinable = true → w'.pc = Pc.terminated ∧ w'.joins = w.joins + 1) ∧
          (w.joinable = false → w' = w)) := by
  unfold ThreadPool.destroy at h
  obtain ⟨hk, _, hin⟩ := joinAll_spec fuel _ _ p' h (List.nodup_range _)
  refine ⟨hk.1, hk.2.1 rfl, hk.2.2.1, hk.2.2.2, ?_⟩
  intro j w hw
  exact hin j (List.mem_range.mpr (getElem?_lt hw)) w hw

/-- The method `destroy` returns when each join may take five actions. -/
theorem destroy_returns (fuel : Nat) (p : ThreadPool) (hf : 5 ≤ fuel) :
    ∃ p', ThreadPool.destroy fuel p = some p' := by
  unfold ThreadPool.destroy
  exact joinAll_total fuel _ _ hf rfl rfl

theorem destroy_not_joinable (fuel : Nat) (p p' : ThreadPool)
    (h : ThreadPool.destroy fuel p = some p') : ∀ w ∈ p'.threads_, w.joinable = false := by
  obtain ⟨_, _, hlen, _, hth⟩ := destroy_result fuel p p' h
  intro w' hw'
  obtain ⟨j, hj⟩ := List.mem_iff_getElem?.mp hw'
  have hlt : j < p.threads_.length := hlen ▸ getElem?_lt hj
  obtain ⟨w2, h2, hjn, _, _⟩ := hth j _ (List.getElem?_eq_getElem hlt)
  rw [hj] at h2
  cases h2
  exact hjn

/-- A second `destroy` changes nothing, whatever its step budget. -/
theorem destroy_twice (fuel fuel2 : Nat) (p p' : ThreadPool)
    (h : ThreadPool.destroy fuel p = some p') : ThreadPool.destroy fuel2 p' = some p' := by
  obtain ⟨hd, hv, _, _, _⟩ := destroy_result fuel p p' h
  have hnj := destroy_not_joinable fuel p p' h
  have hsame : ({ ({ p' with done_ := true } : ThreadPool) with
      queue_ := ({ p' with done_ := true } : ThreadPool).queue_.invalidate } : ThreadPool)
      = p' := by
    cases p' with
    | mk q d r he ep th =>
      cases q with
      | mk items valid cap =>
        simp only [SafeQueue.invalidate] at hd hv ⊢
        subst hd hv
        rfl
  unfold ThreadPool.destroy
  simp only [hsame]
  exact joinAll_of_not_joinable fuel2 _ p' hnj

/-! ## Teardown -/

/-- C8: `destroy` returns (five actions per join suffice); afterwards `done_`
is true, the queue is invalid and no thread is joinable; every thread has been
joined once if it was joinable and not at all otherwise; a second call, or the
destructor, or the destructor after a `checkException` that raised, returns
the very same pool state, join counts included. -/
theorem destroy_idempotent (fuel : Nat) (p : ThreadPool) (hf : 5 ≤ fuel) :
    ∃ p', ThreadPool.destroy fuel p = some p' ∧
      p'.done_ = true ∧ p'.queue_.valid_ = false ∧
      (∀ w ∈ p'.threads_, w.joinable = false) ∧
      (∀ (j : Nat) (w w' : Worker), p.threads_[j]? = some w → p'.threads_[j]? = some w' →
        w'.joins = w.joins + (if w.joinable then 1 else 0)) ∧
      ThreadPool.destroy fuel p' = some p' ∧
      ThreadPool.destructor fuel p' = some p' ∧
      (∀ (q : ThreadPool) (e : Nat),
        ThreadPool.checkException fuel p = some (q, some e) →
          ThreadPool.destructor fuel q = some q) := by
  obtain ⟨p', hp'⟩ := destroy_returns fuel p hf
  obtain ⟨hd, hv, _, _, hth⟩ := destroy_result fuel p p' hp'
  refine ⟨p', hp', hd, hv, destroy_not_joinable fuel p p' hp', ?_,
    destroy_twice fuel fuel p p' hp', destroy_twice fuel fuel p p' hp', ?_⟩
  · intro j w w' hw hw'
    obtain ⟨w2, h2, _, hjoined, hnot⟩ := hth j w hw
    rw [hw'] at h2
    cases h2
    cases hj : w.joinable
    · rw [hnot hj]; simp [hj]
    · simp [(hjoined hj).2]
  · intro q e hq
    unfold ThreadPool.checkException at hq
    split at hq
    · rw [hp'] at hq
      simp only [Option.map_some', Option.some.injEq, Prod.mk.injEq] at hq
      rw [← hq.1]
      exact destroy_twice fuel fuel p p' hp'
    · simp at hq

theorem destroy_idempotent_witness :
    5 ≤ 5 ∧
      ∃ p', ThreadPool.destroy 5 afterThreeFaults = some p' ∧
        p'.done_ = true ∧ p'.queue_.valid_ = false ∧
        (∀ w ∈ p'.threads_, w.joinable = false) ∧
        (∀ (j : Nat) (w w' : Worker), afterThreeFaults.threads_[j]? = some w →
          p'.threads_[j]? = some w' → w'.joins = w.joins + (if w.joinable then 1 else 0)) ∧
        ThreadPool.destroy 5 p' = some p' ∧
        ThreadPool.destructor 5 p' = some p' ∧
        (∀ (q : ThreadPool) (e : Nat),
          ThreadPool.checkException 5 afterThreeFaults = some (q, some e) →
            ThreadPool.destructor 5 q = some q) :=
  ⟨by decide, destroy_idempotent 5 afterThreeFaults (by decide)⟩

/-! ## Construction -/

theorem stepThread_allJoinable (i : Nat) (p : ThreadPool) (h : AllJoinable p) :
    AllJoinable (stepThread i p) := by
  intro j w hw
  by_cases hji : j = i
  · subst hji
    have hlt : j < p.threads_.length := by
      have := getElem?_lt hw
      rwa [stepThread_length] at this
    have h0 := List.getElem?_eq_getElem hlt
    rw [stepThread_get_self h0] at hw
    cases hw
    have hs := worker_step_static p p.threads_[j]
    have := h j _ h0
    exact ⟨hs.1.trans this.1, hs.2.1.trans this.2⟩
  · rw [stepThread_get_ne p hji] at hw
    exact h j w hw

theorem runSteps_allJoinable (xs : List Nat) (p : ThreadPool) (h : AllJoinable p) :
    AllJoinable (runSteps xs p) := by
  induction xs generalizing p with
  | nil => exact h
  | cons i rest ih => exact ih _ (stepThread_allJoinable i p h)

/-- The constructor loop, started at thread index `i0` with `i0` threads
created, `d` creations before the one that fails. -/
theorem spawnLoop_failure (fuel : Nat) (initf finf : Bool) (spawn_error : Nat → Option Nat)
    (sched : Nat → List Nat) (e : Nat) (hf : 5 ≤ fuel) (d : Nat) :
    ∀ (k i0 : Nat) (p : ThreadPool), d < k → p.threads_.length = i0 → AllJoinable p →
      spawn_error (i0 + d) = some e →
      (∀ j, i0 ≤ j → j < i0 + d → spawn_error j = none) →
      ∃ p', spawnLoop fuel initf finf spawn_error sched k i0 p = some (p', some e) ∧
        p'.done_ = true ∧ p'.queue_.valid_ = false ∧ p'.threads_.length = i0 + d ∧
        ∀ w ∈ p'.threads_, w.pc = Pc.terminated ∧ w.joinable = false ∧ w.joins = 1 := by
  induction d with
  | zero =>
    intro k i0 p hk hlen hall hfail _
    obtain ⟨k', rfl⟩ : ∃ k', k = k' + 1 := ⟨k - 1, by omega⟩
    obtain ⟨p', hp'⟩ := destroy_returns fuel p hf
    obtain ⟨hd, hv, hl, _, hth⟩ := destroy_result fuel p p' hp'
    refine ⟨p', ?_, hd, hv, by omega, ?_⟩
    · simp only [Nat.add_zero] at hfail
      simp [spawnLoop, hfail, hp']
    · intro w' hw'
      obtain ⟨j, hj⟩ := List.mem_iff_getElem?.mp hw'
      have hlt : j < p.threads_.length := hl ▸ getElem?_lt hj
      have h0 := List.getElem?_eq_getElem hlt
      obtain ⟨w2, h2, hjn, hjoined, _⟩ := hth j _ h0
      rw [hj] at h2
      cases h2
      have ha := hall j _ h0
      have := hjoined ha.1
      exact ⟨this.1, hjn, by rw [this.2, ha.2]⟩
  | succ d ih =>
    intro k i0 p hk hlen hall hfail hok
    obtain ⟨k', rfl⟩ : ∃ k', k = k' + 1 := ⟨k - 1, by omega⟩
    have h0 : spawn_error i0 = none := hok i0 (le_refl _) (by omega)
    have hnext := ih k' (i0 + 1)
      (runSteps (sched i0) { p with threads_ := p.threads_ ++ [Worker.spawned initf finf] })
      (by omega)
      (by rw [runSteps_length]; simp [hlen])
      (by
        apply runSteps_allJoinable
        intro j w hw
        by_cases hj : j < p.threads_.length
        · rw [List.getElem?_append_left hj] at hw
          exact hall j w hw
        · have hj' : p.threads_.length ≤ j := Nat.le_of_not_lt hj
          rw [List.getElem?_append_right hj'] at hw
          have hw1 : w = Worker.spawned initf finf := by
            cases hjj : j - p.threads_.length with
            | zero => rw [hjj] at hw; simpa using hw.symm
            | succ n => rw [hjj] at hw; simp at hw
          subst hw1
          exact ⟨rfl, rfl⟩)
      (by rw [show i0 + 1 + d = i0 + (d + 1) by omega]; exact hfail)
      (fun j hj1 hj2 => hok j (by omega) (by omega))
    obtain ⟨p', hp', hd, hv, hl, hw⟩ := hnext
    refine ⟨p', ?_, hd, hv, by omega, hw⟩
    simp only [spawnLoop, h0]
    exact hp'

/-- C7: if creating thread `i` fails with `e` (the creations before it having
succeeded), then, whatever the threads created so far have done meanwhile, the
constructor returns with `e` raised after `destroy` has run: `done_` is true,
the queue is invalid, there are exactly the `i` threads created before, and
each of them has terminated, is no longer joinable and has been joined once. -/
theorem constructor_rolls_back (fuel num_threads max_queue_size : Nat)
    (worker_init_function worker_finalize_function : Bool)
    (spawn_error : Nat → Option Nat) (sched : Nat → List Nat) (i e : Nat)
    (hf : 5 ≤ fuel) (hi : i < num_threads) (hfail : spawn_error i = some e)
    (hok : ∀ j, j < i → spawn_error j = none) :
    ∃ p', ThreadPool.constructor fuel num_threads max_queue_size worker_init_function
          worker_finalize_function spawn_error sched = some (p', some e) ∧
      p'.done_ = true ∧ p'.queue_.valid_ = false ∧ p'.threads_.length = i ∧
      ∀ w ∈ p'.threads_, w.pc = Pc.terminated ∧ w.joinable = false ∧ w.joins = 1 := by
  have h := spawnLoop_failure fuel worker_init_function worker_finalize_function spawn_error
    sched e hf i num_threads 0 (ThreadPool.members max_queue_size) hi rfl
    (by intro j w hw; simp [ThreadPool.members] at hw)
    (by rw [Nat.zero_add]; exact hfail)
    (fun j _ hj => hok j (by omega))
  simpa [ThreadPool.constructor] using h

theorem constructor_rolls_back_witness :
    5 ≤ 5 ∧ 2 < 3 ∧ failAt 2 7 2 = some 7 ∧ (∀ j, j < 2 → failAt 2 7 j = none) ∧
      ∃ p', ThreadPool.constructor 5 3 4 true true (failAt 2 7) eagerSched = some (p', some 7) ∧
        p'.done_ = true ∧ p'.queue_.valid_ = false ∧ p'.threads_.length = 2 ∧
        ∀ w ∈ p'.threads_, w.pc = Pc.terminated ∧ w.joinable = false ∧ w.joins = 1 :=
  ⟨by decide, by decide, by decide, by decide,
    constructor_rolls_back 5 3 4 true true (failAt 2 7) eagerSched 2 7
      (by decide) (by decide) (by decide) (by decide)⟩

/-! ## The barrier -/

theorem wait_some {obs : List ThreadPool} {p : ThreadPool} (h : ThreadPool.wait obs = some p) :
    p ∈ obs ∧ waitPredicate p = true := by
  induction obs with
  | nil => simp [ThreadPool.wait] at h
  | cons q later ih =>
    simp only [ThreadPool.wait] at h
    split at h
    · rename_i hq
      cases h
      exact ⟨List.mem_cons_self _ _, hq⟩
    · obtain ⟨hm, hp⟩ := ih h
      exact ⟨List.mem_cons_of_mem _ hm, hp⟩

theorem wait_isSome (obs : List ThreadPool) :
    (ThreadPool.wait obs).isSome = true ↔ ∃ q ∈ obs, waitPredicate q = true := by
  induction obs with
  | nil => simp [ThreadPool.wait]
  | cons q later ih =>
    simp only [ThreadPool.wait]
    split
    · rename_i hq
      simp [hq]
    · rename_i hq
      simp [ih, hq]

/-- C2: `wait` returns exactly when one of the states it wakes up in has a
fault recorded or is quiescent, and the state it returns in is such a state;
so when it returns with no fault recorded the queue is empty and `run_cnt_`
is zero. -/
theorem wait_returns_on_fault_or_quiescence (obs : List ThreadPool) (p : ThreadPool)
    (h : ThreadPool.wait obs = some p) :
    (p.exception_ptr_.isSome = true ∨ (p.queue_.empty = true ∧ p.run_cnt_ = 0)) ∧
      (p.exception_ptr_ = none →
        p.queue_.queue_ = [] ∧ ThreadPool.queueSize p = 0 ∧ p.run_cnt_ = 0) ∧
      ((ThreadPool.wait obs).isSome = true ↔
        ∃ q ∈ obs,
          q.exception_ptr_.isSome = true ∨ (q.queue_.empty = true ∧ q.run_cnt_ = 0)) := by
  have hp := (wait_some h).2
  simp only [waitPredicate, Bool.or_eq_true, Bool.and_eq_true, beq_iff_eq] at hp
  refine ⟨hp, ?_, ?_⟩
  · intro hnone
    rcases hp with hp | hp
    · simp [hnone] at hp
    · have : p.queue_.queue_ = [] := by simpa [SafeQueue.empty] using hp.1
      exact ⟨this, by simp [ThreadPool.queueSize, SafeQueue.size, this], hp.2⟩
  · rw [wait_isSome]
    simp [waitPredicate]

theorem wait_returns_on_fault_or_quiescence_witness :
    ThreadPool.wait [threeDequeued, scenarioT2] = some scenarioT2 ∧
      (scenarioT2.exception_ptr_.isSome = true ∨
        (scenarioT2.queue_.empty = true ∧ scenarioT2.run_cnt_ = 0)) ∧
      (scenarioT2.exception_ptr_ = none →
        scenarioT2.queue_.queue_ = [] ∧ ThreadPool.queueSize scenarioT2 = 0 ∧
          scenarioT2.run_cnt_ = 0) ∧
      ((ThreadPool.wait [threeDequeued, scenarioT2]).isSome = true ↔
        ∃ q ∈ [threeDequeued, scenarioT2],
          q.exception_ptr_.isSome = true ∨ (q.queue_.empty = true ∧ q.run_cnt_ = 0)) :=
  ⟨by rfl, wait_returns_on_fault_or_quiescence [threeDequeued, scenarioT2] scenarioT2 (by rfl)⟩

/-! ## Hooks -/

theorem logShape_extend {w : Worker} {ev : Event}
    (h : ∃ body, w.log = hookLog w.init_function Event.initCall ++ body ∧
      ∀ e ∈ body, e.isHook = false) (hev : ev.isHook = false) :
    ∃ body, w.log ++ [ev] = hookLog w.init_function Event.initCall ++ body ∧
      ∀ e ∈ body, e.isHook = false := by
  obtain ⟨body, hb, hno⟩ := h
  refine ⟨body ++ [ev], by rw [hb, List.append_assoc], ?_⟩
  intro e he
  rcases List.mem_append.mp he with h1 | h1
  · exact hno e h1
  · rw [List.mem_singleton.mp h1]; exact hev

theorem worker_step_logShape (p : ThreadPool) (w : Worker) (h : LogShape w) :
    LogShape (worker_step p w).2 := by
  unfold worker_step
  split
  · rename_i hpc
    simp only [LogShape, hpc] at h
    simp only [LogShape, h, List.nil_append]
    exact ⟨[], by simp [hookLog], by simp⟩
  · rename_i hpc
    simp only [LogShape, hpc] at h
    split <;> exact h
  · rename_i hpc
    simp only [LogShape, hpc] at h
    split
    · simpa only [LogShape, hpc] using h
    · exact logShape_extend h rfl
    · exact logShape_extend h rfl
  · rename_i t hpc
    simp only [LogShape, hpc] at h
    split
    · exact logShape_extend h rfl
    · exact logShape_extend h rfl
  · rename_i t hpc
    simp only [LogShape, hpc] at h
    exact h
  · rename_i hpc
    simp only [LogShape, hpc] at h
    obtain ⟨body, hb, hno⟩ := h
    exact ⟨body, by simp only [hb, hookLog], hno⟩
  · rename_i hpc
    exact h

theorem workerRun_inv (sched : List (Option ThreadPool)) (p : ThreadPool) (w : Worker)
    (h : LogShape w) :
    LogShape (workerRun sched p w).2 ∧
      (workerRun sched p w).2.init_function = w.init_function ∧
      (workerRun sched p w).2.finalize_function = w.finalize_function := by
  induction sched generalizing p w with
  | nil => exact ⟨h, rfl, rfl⟩
  | cons a rest ih =>
    cases a with
    | none =>
      simp only [workerRun]
      obtain ⟨h1, h2, h3⟩ :=
        ih (worker_step p w).1 (worker_step p w).2 (worker_step_logShape p w h)
      have hs := worker_step_static p w
      exact ⟨h1, h2.trans hs.2.2.1, h3.trans hs.2.2.2⟩
    | some p' =>
      simp only [workerRun]
      exact ih p' w h

theorem count_of_no_hook {body : List Event} (ev : Event)
    (hno : ∀ e ∈ body, e.isHook = false) (hev : ev.isHook = true) : body.count ev = 0 := by
  rw [List.count_eq_zero]
  intro hm
  rw [hno ev hm] at hev
  cases hev

theorem workerRun_append (xs ys : List (Option ThreadPool)) (p : ThreadPool) (w : Worker) :
    workerRun (xs ++ ys) p w = workerRun ys (workerRun xs p w).1 (workerRun xs p w).2 := by
  induction xs generalizing p w with
  | nil => rfl
  | cons a rest ih =>
    cases a with
    | none =>
      rw [List.cons_append]
      simp only [workerRun]
      exact ih _ _
    | some p' =>
      rw [List.cons_append]
      simp only [workerRun]
      exact ih _ _

/-- One loop iteration of a worker alone: four actions dequeue and run the
head of the queue. -/
theorem workerRun_iteration (p : ThreadPool) (w : Worker) (t : Task) (ts : List Task)
    (hd : p.done_ = false) (hq : p.queue_.queue_ = t :: ts) (hpc : w.pc = Pc.loopHead) :
    (workerRun (List.replicate 4 none) p w).1.done_ = false ∧
      (workerRun (List.replicate 4 none) p w).1.queue_.queue_ = ts ∧
      (workerRun (List.replicate 4 none) p w).2 =
        { w with log := w.log ++ taskEvents t } := by
  cases w with
  | mk pc initf finf jn js log =>
    simp only at hpc
    subst hpc
    cases hr : t.raises with
    | none =>
      simp [List.replicate, workerRun, worker_step, hd, SafeQueue.pop, hq,
        increase_run_cnt_func, hr, taskEvents]
    | some e =>
      simp [List.replicate, workerRun, worker_step, hd, SafeQueue.pop, hq,
        increase_run_cnt_func, hr, taskEvents, catch_handler_done, catch_handler_items]

/-- A worker alone at the loop head, with `done_` clear, processes the tasks
at the head of the queue one after the other. -/
theorem workerRun_loop (ts rest : List Task) (p : ThreadPool) (w : Worker)
    (hd : p.done_ = false) (hq : p.queue_.queue_ = ts ++ rest) (hpc : w.pc = Pc.loopHead) :
    (workerRun (List.replicate (4 * ts.length) none) p w).2 =
      { w with log := w.log ++ ts.flatMap taskEvents } := by
  induction ts generalizing p w with
  | nil => cases w; simp [workerRun]
  | cons t ts ih =>
    have hsplit : List.replicate (4 * (t :: ts).length) (none : Option ThreadPool) =
        List.replicate 4 none ++ List.replicate (4 * ts.length) none := by
      rw [← List.replicate_add]
      congr 1
      simp only [List.length_cons]
      omega
    obtain ⟨h1, h2, h3⟩ := workerRun_iteration p w t (ts ++ rest) hd (by simpa using hq) hpc
    rw [hsplit, workerRun_append, ih _ _ h1 h2 (by rw [h3]; exact hpc), h3]
    simp [List.flatMap_cons, List.append_assoc]

/-- For every list of queued tasks there is a complete run of a worker that
processes exactly these. -/
theorem workerRun_solo (ts : List Task) (initf finf : Bool) (cap : Nat) :
    (workerRun (soloSched ts.length)
        { ThreadPool.members cap with queue_ := { queue_ := ts, valid_ := true, max_size_ := cap } }
        (Worker.spawned initf finf)).2 =
      { Worker.spawned initf finf with
        pc := Pc.terminated,
        log := hookLog initf Event.initCall ++ ts.flatMap taskEvents ++
          hookLog finf Event.finalizeCall } := by
  simp only [soloSched, workerRun]
  rw [workerRun_append]
  have h := workerRun_loop ts []
    (worker_step { ThreadPool.members cap with
      queue_ := { queue_ := ts, valid_ := true, max_size_ := cap } }
      (Worker.spawned initf finf)).1
    (worker_step { ThreadPool.members cap with
      queue_ := { queue_ := ts, valid_ := true, max_size_ := cap } }
      (Worker.spawned initf finf)).2
    (by simp [worker_step, Worker.spawned, ThreadPool.members])
    (by simp [worker_step, Worker.spawned])
    (by simp [worker_step, Worker.spawned])
  rw [h]
  simp [workerRun, worker_step, Worker.spawned, doneMembers, ThreadPool.members, hookLog]

/-- C10: in every complete run of a worker, whatever the other threads do to
the members meanwhile, the log is the init hook call (if the hook is
non-empty), then loop events only (pops and task executions), then the
finalize hook call (if that hook is non-empty): each non-empty hook is called
exactly once, the init hook before the first `pop`, the finalize hook after
the last task, and an empty hook is skipped.  Such complete runs exist for
every list of tasks, succeeding or throwing. -/
theorem worker_hooks_once (sched : List (Option ThreadPool)) (p : ThreadPool)
    (init_function finalize_function : Bool)
    (h : (workerRun sched p (Worker.spawned init_function finalize_function)).2.pc
      = Pc.terminated) :
    (∃ body,
      (workerRun sched p (Worker.spawned init_function finalize_function)).2.log =
        hookLog init_function Event.initCall ++ body ++
          hookLog finalize_function Event.finalizeCall ∧
      ∀ e ∈ body, e.isHook = false) ∧
    (workerRun sched p (Worker.spawned init_function finalize_function)).2.log.count
        Event.initCall = (if init_function then 1 else 0) ∧
    (workerRun sched p (Worker.spawned init_function finalize_function)).2.log.count
        Event.finalizeCall = (if finalize_function then 1 else 0) ∧
    (∀ ts : List Task,
      (workerRun (soloSched ts.length) (queued ts ts.length)
          (Worker.spawned init_function finalize_function)).2.pc = Pc.terminated ∧
      (workerRun (soloSched ts.length) (queued ts ts.length)
          (Worker.spawned init_function finalize_function)).2.log =
        hookLog init_function Event.initCall ++ ts.flatMap taskEvents ++
          hookLog finalize_function Event.finalizeCall) := by
  obtain ⟨hshape, hi, hf⟩ := workerRun_inv sched p
    (Worker.spawned init_function finalize_function) (by simp [LogShape, Worker.spawned])
  simp only [LogShape, h] at hshape
  have hi' : (workerRun sched p (Worker.spawned init_function finalize_function)).2.init_function
      = init_function := hi
  have hf' : (workerRun sched p
      (Worker.spawned init_function finalize_function)).2.finalize_function
      = finalize_function := hf
  rw [hi', hf'] at hshape
  obtain ⟨body, hb, hno⟩ := hshape
  refine ⟨⟨body, hb, hno⟩, ?_, ?_, ?_⟩
  · rw [hb]
    simp only [List.count_append, count_of_no_hook Event.initCall hno rfl]
    cases init_function <;> cases finalize_function <;> simp [hookLog]
  · rw [hb]
    simp only [List.count_append, count_of_no_hook Event.finalizeCall hno rfl]
    cases init_function <;> cases finalize_function <;> simp [hookLog]
  · intro ts
    have := workerRun_solo ts init_function finalize_function ts.length
    simp only [queued]
    rw [this]
    exact ⟨rfl, rfl⟩

theorem worker_hooks_once_witness :
    (workerRun (soloSched 2) (queued [taskOk 1, taskThrow 2 22] 2)
        (Worker.spawned true false)).2.pc = Pc.terminated ∧
    ((∃ body,
      (workerRun (soloSched 2) (queued [taskOk 1, taskThrow 2 22] 2)
          (Worker.spawned true false)).2.log =
        hookLog true Event.initCall ++ body ++ hookLog false Event.finalizeCall ∧
      ∀ e ∈ body, e.isHook = false) ∧
    (workerRun (soloSched 2) (queued [taskOk 1, taskThrow 2 22] 2)
        (Worker.spawned true false)).2.log.count Event.initCall = (if true then 1 else 0) ∧
    (workerRun (soloSched 2) (queued [taskOk 1, taskThrow 2 22] 2)
        (Worker.spawned true false)).2.log.count Event.finalizeCall
      = (if false then 1 else 0) ∧
    (∀ ts : List Task,
      (workerRun (soloSched ts.length) (queued ts ts.length)
          (Worker.spawned true false)).2.pc = Pc.terminated ∧
      (workerRun (soloSched ts.length) (queued ts ts.length)
          (Worker.spawned true false)).2.log =
        hookLog true Event.initCall ++ ts.flatMap taskEvents ++
          hookLog false Event.finalizeCall)) :=
  ⟨by rfl, worker_hooks_once (soloSched 2) (queued [taskOk 1, taskThrow 2 22] 2) true false
    (by rfl)⟩

/-! ## Reachable states -/

theorem sum_map_set (f : Worker → Nat) (l : List Worker) (i : Nat) (w' : Worker)
    (h : i < l.length) :
    ((l.set i w').map f).sum + f l[i] = (l.map f).sum + f w' := by
  induction l generalizing i with
  | nil => simp at h
  | cons a rest ih =>
    cases i with
    | zero => simp; omega
    | succ k =>
      simp only [List.length_cons, Nat.add_lt_add_iff_right] at h
      have := ih k h
      simp only [List.set_cons_succ, List.map_cons, List.sum_cons, List.getElem_cons_succ]
      omega

theorem catch_handler_valid_or (e : Nat) (p : ThreadPool) :
    (catch_handler e p).queue_.valid_ = p.queue_.valid_ ∨
      ((catch_handler e p).queue_.valid_ = false ∧
        (catch_handler e p).exception_ptr_.isSome = true) := by
  cases h : p.has_exception_ <;> simp [catch_handler, h, SafeQueue.invalidate]

/-- A worker action invalidates the queue only together with recording a fault. -/
theorem worker_step_valid_or (p : ThreadPool) (w : Worker) :
    (worker_step p w).1.queue_.valid_ = p.queue_.valid_ ∨
      ((worker_step p w).1.queue_.valid_ = false ∧
        (worker_step p w).1.exception_ptr_.isSome = true) := by
  unfold worker_step
  split
  · exact Or.inl rfl
  · split <;> exact Or.inl rfl
  · split
    · exact Or.inl rfl
    · exact Or.inl rfl
    · rename_i t q hq
      exact Or.inl (by simp [increase_run_cnt_func, (pop_success hq).2.1])
  · split
    · exact Or.inl rfl
    · exact catch_handler_valid_or _ _
  · exact Or.inl rfl
  · exact Or.inl rfl
  · exact Or.inl rfl

/-- While `done_` is clear a worker does not leave its loop. -/
theorem worker_step_in_loop (p : ThreadPool) (w : Worker) (hd : p.done_ = false)
    (h : w.pc ≠ Pc.finalizing ∧ w.pc ≠ Pc.terminated) :
    (worker_step p w).2.pc ≠ Pc.finalizing ∧ (worker_step p w).2.pc ≠ Pc.terminated := by
  unfold worker_step
  split
  · simp
  · simp [hd]
  · split
    · exact h
    · simp
    · simp
  · split <;> simp
  · simp
  · rename_i hpc; exact absurd hpc h.1
  · rename_i hpc; exact absurd hpc h.2

/-- While the queue is valid, a worker action changes `run_cnt_` by exactly
the change of the worker's in-flight count, and no `pop` fails. -/
theorem worker_step_count (p : ThreadPool) (w : Worker) (hv : p.queue_.valid_ = true)
    (hnf : w.pc ≠ Pc.finishing none) :
    (worker_step p w).1.run_cnt_ + (w.inFlight : Int) =
        p.run_cnt_ + ((worker_step p w).2.inFlight : Int) ∧
      (worker_step p w).2.pc ≠ Pc.finishing none := by
  unfold worker_step
  split
  · rename_i hpc; simp [Worker.inFlight, hpc]
  · rename_i hpc; split <;> simp [Worker.inFlight, hpc]
  · rename_i hpc
    unfold SafeQueue.pop
    cases hq : p.queue_.queue_ with
    | nil => simp [hv, Worker.inFlight, hpc]
    | cons t rest => simp [Worker.inFlight, hpc, increase_run_cnt_func]
  · rename_i t hpc
    split
    · simp [Worker.inFlight, hpc]
    · simp [Worker.inFlight, hpc, catch_handler_run_cnt]
  · rename_i t hpc
    cases t with
    | none => exact absurd hpc hnf
    | some t => simp [Worker.inFlight, hpc]
  · rename_i hpc; simp [Worker.inFlight, hpc]
  · rename_i hpc; simp [Worker.inFlight, hpc]

theorem stepThread_inv (i : Nat) (p : ThreadPool) (h : Inv p) : Inv (stepThread i p) := by
  obtain ⟨hd, hfault, hloop, hcount⟩ := h
  cases hw : p.threads_[i]? with
  | none => rw [stepThread_of_none hw]; exact ⟨hd, hfault, hloop, hcount⟩
  | some w =>
    have hlt := getElem?_lt hw
    have hwm : w ∈ p.threads_ := List.getElem?_mem hw
    have hget : p.threads_[i] = w := by
      have := List.getElem?_eq_getElem hlt
      rw [hw] at this
      exact (Option.some.inj this).symm
    have hmem : ∀ w2 ∈ (stepThread i p).threads_,
        w2 ∈ p.threads_ ∨ w2 = (worker_step p w).2 := by
      intro w2 hw2
      rw [stepThread_of_some hw] at hw2
      simp only [worker_step_threads] at hw2
      exact List.mem_or_eq_of_mem_set hw2
    have hvalid : (stepThread i p).queue_.valid_ = (worker_step p w).1.queue_.valid_ := by
      rw [stepThread_of_some hw]
    have hexc : (stepThread i p).exception_ptr_ = (worker_step p w).1.exception_ptr_ := by
      rw [stepThread_of_some hw]
    refine ⟨by rw [stepThread_done]; exact hd, ?_, ?_, ?_⟩
    · intro hv'
      rw [hvalid] at hv'
      rw [hexc]
      rcases worker_step_valid_or p w with h1 | h1
      · exact worker_step_fault p w (hfault (h1 ▸ hv'))
      · exact h1.2
    · intro w2 hw2
      rcases hmem w2 hw2 with h1 | h1
      · exact hloop w2 h1
      · rw [h1]; exact worker_step_in_loop p w hd (hloop w hwm)
    · intro hv'
      rw [hvalid] at hv'
      have hv : p.queue_.valid_ = true := by
        cases hpv : p.queue_.valid_ with
        | true => rfl
        | false => rw [worker_step_valid p w hpv] at hv'; cases hv'
      obtain ⟨hc, hnf⟩ := hcount hv
      obtain ⟨hc', hnf'⟩ := worker_step_count p w hv (hnf w hwm)
      refine ⟨?_, ?_⟩
      · have hsum := sum_map_set Worker.inFlight p.threads_ i (worker_step p w).2 hlt
        rw [hget] at hsum
        have hrun : (stepThread i p).run_cnt_ = (worker_step p w).1.run_cnt_ := by
          rw [stepThread_of_some hw]
        have hfl : (stepThread i p).inFlight =
            ((p.threads_.set i (worker_step p w).2).map Worker.inFlight).sum := by
          rw [stepThread_of_some hw]
          simp [ThreadPool.inFlight, worker_step_threads]
        rw [hrun, hfl]
        unfold ThreadPool.inFlight at hc
        omega
      · intro w2 hw2
        rcases hmem w2 hw2 with h1 | h1
        · exact hnf w2 h1
        · rw [h1]; exact hnf'

theorem submit_inv (t : Task) (p : ThreadPool) (h : Inv p) : Inv (ThreadPool.submit t p).2 := by
  unfold ThreadPool.submit SafeQueue.push
  split
  · rename_i q hq
    split at hq
    · cases hq
    · split at hq
      · cases hq
      · simp only [PushResult.accepted.injEq] at hq
        subst hq
        exact h
  · exact h

theorem fresh_inv (n cap : Nat) (initf finf : Bool) : Inv (ThreadPool.fresh n cap initf finf) := by
  refine ⟨rfl, by simp [ThreadPool.fresh, ThreadPool.members], ?_, ?_⟩
  · intro w hw
    simp only [ThreadPool.fresh, List.mem_replicate] at hw
    rw [hw.2]
    simp [Worker.spawned]
  · intro _
    refine ⟨?_, ?_⟩
    · simp [ThreadPool.fresh, ThreadPool.members, ThreadPool.inFlight, Worker.spawned,
        Worker.inFlight]
    · intro w hw
      simp only [ThreadPool.fresh, List.mem_replicate] at hw
      rw [hw.2]
      simp [Worker.spawned]

theorem runOps_inv (ops : List Op) (p : ThreadPool) (h : Inv p) : Inv (runOps ops p) := by
  induction ops generalizing p with
  | nil => exact h
  | cons o rest ih =>
    cases o with
    | step i => exact ih _ (stepThread_inv i p h)
    | submit t => exact ih _ (submit_inv t p h)

/-! ## Processing a batch -/

theorem runSteps_replicate_add (i a b : Nat) (p : ThreadPool) :
    runSteps (List.replicate (a + b) i) p =
      runSteps (List.replicate b i) (runSteps (List.replicate a i) p) := by
  rw [List.replicate_add, runSteps_append]

/-- One loop iteration of thread `i` on a succeeding task. -/
theorem atPop_iteration (i : Nat) (p : ThreadPool) (t : Task) (ts : List Task)
    (base : List Event) (h : AtPop i p (t :: ts) base) (ht : t.raises = none) :
    AtPop i (runSteps (List.replicate 4 i) p) ts (base ++ taskEvents t) := by
  obtain ⟨hd, hv, hq, hr, he, w, hw, hpc, hlog⟩ := h
  have hlt := getElem?_lt hw
  cases w with
  | mk pc initf finf jn js log =>
    simp only at hpc hlog
    subst hpc hlog
    simp [List.replicate, runSteps, stepThread, hw, hlt, worker_step, SafeQueue.pop, hq,
      increase_run_cnt_func, hr, ht, hd, hv, he, AtPop, taskEvents]

theorem set_getElem_same (l : List Worker) (i : Nat) (h : i < l.length) :
    l.set i l[i] = l := by
  induction l generalizing i with
  | nil => simp at h
  | cons a rest ih =>
    cases i with
    | zero => simp
    | succ k =>
      simp only [List.length_cons, Nat.add_lt_add_iff_right] at h
      simp [ih k h]

theorem atPop_stutter (i : Nat) (p : ThreadPool) (base : List Event) (h : AtPop i p [] base)
    (m : Nat) : runSteps (List.replicate m i) p = p := by
  obtain ⟨hd, hv, hq, hr, he, w, hw, hpc, hlog⟩ := h
  have h1 : stepThread i p = p := by
    have hlt := getElem?_lt hw
    rw [stepThread_of_some hw]
    have hws : worker_step p w = (p, w) := by
      simp [worker_step, hpc, SafeQueue.pop, hq, hv]
    rw [hws]
    have hget : p.threads_[i] = w := by
      have := List.getElem?_eq_getElem hlt
      rw [hw] at this
      exact (Option.some.inj this).symm
    have hset : p.threads_.set i w = p.threads_ := by
      rw [← hget]
      exact set_getElem_same _ _ hlt
    simp only [hset]
  induction m with
  | zero => rfl
  | succ k ih => simp only [List.replicate_succ, runSteps, h1, ih]

theorem atPop_batch (i : Nat) (ts : List Task) (p : ThreadPool) (base : List Event)
    (h : AtPop i p ts base) (hok : ∀ t ∈ ts, t.raises = none) :
    AtPop i (runSteps (List.replicate (4 * ts.length) i) p) []
      (base ++ ts.flatMap taskEvents) := by
  induction ts generalizing p base with
  | nil => simpa [runSteps] using h
  | cons t ts ih =>
    have h4 : 4 * (t :: ts).length = 4 + 4 * ts.length := by
      simp only [List.length_cons]; omega
    rw [h4, runSteps_replicate_add]
    have h1 := atPop_iteration i p t ts base h (hok t (List.mem_cons_self _ _))
    have h2 := ih _ _ h1 (fun t' ht' => hok t' (List.mem_cons_of_mem _ ht'))
    simpa [List.flatMap_cons, List.append_assoc] using h2

/-- An idle worker reaches its next `pop` within two actions. -/
theorem idle_reaches_pop (i : Nat) (p : ThreadPool) (ts : List Task) (w : Worker)
    (hd : p.done_ = false) (hv : p.queue_.valid_ = true) (hq : p.queue_.queue_ = ts)
    (hr : p.run_cnt_ = 0) (he : p.exception_ptr_ = none) (hw : p.threads_[i]? = some w)
    (hpc : w.pc = Pc.init ∨ w.pc = Pc.loopHead ∨ w.pc = Pc.popping) :
    ∃ k base, k ≤ 2 ∧ AtPop i (runSteps (List.replicate k i) p) ts base := by
  have hlt := getElem?_lt hw
  cases w with
  | mk pc initf finf jn js log =>
    simp only at hpc
    rcases hpc with rfl | rfl | rfl
    · refine ⟨2, log ++ hookLog initf Event.initCall, le_refl _, ?_⟩
      simp [List.replicate, runSteps, stepThread, hw, hlt, worker_step, hd, hv, hq, hr, he,
        AtPop, hookLog]
    · refine ⟨1, log, by omega, ?_⟩
      simp [List.replicate, runSteps, stepThread, hw, hlt, worker_step, hd, hv, hq, hr, he,
        AtPop]
    · exact ⟨0, log, by omega, hd, hv, hq, hr, he, _, hw, rfl, rfl⟩

/-- An idle worker processes a queued batch of succeeding tasks within
`2 + 4 * n` actions and is then back at `pop`, all of them run. -/
theorem idle_processes_batch (i : Nat) (p : ThreadPool) (ts : List Task) (w : Worker)
    (hd : p.done_ = false) (hv : p.queue_.valid_ = true) (hq : p.queue_.queue_ = ts)
    (hr : p.run_cnt_ = 0) (he : p.exception_ptr_ = none) (hw : p.threads_[i]? = some w)
    (hpc : w.pc = Pc.init ∨ w.pc = Pc.loopHead ∨ w.pc = Pc.popping)
    (hok : ∀ t ∈ ts, t.raises = none) :
    ∃ base, AtPop i (runSteps (List.replicate (2 + 4 * ts.length) i) p) []
      (base ++ ts.flatMap taskEvents) := by
  obtain ⟨k, base, hk, hat⟩ := idle_reaches_pop i p ts w hd hv hq hr he hw hpc
  have hb := atPop_batch i ts _ base hat hok
  refine ⟨base, ?_⟩
  have hsplit : 2 + 4 * ts.length = k + (4 * ts.length + (2 - k)) := by omega
  rw [hsplit, runSteps_replicate_add, runSteps_replicate_add, atPop_stutter i _ _ hb]
  exact hb

theorem submitAll_accepted (ts : List Task) (p : ThreadPool) (hv : p.queue_.valid_ = true)
    (hcap : p.queue_.queue_.length + ts.length ≤ p.queue_.max_size_) :
    acceptsAll ts p = true ∧
      submitAll ts p =
        { p with queue_ := { p.queue_ with queue_ := p.queue_.queue_ ++ ts } } := by
  induction ts generalizing p with
  | nil => simp [acceptsAll, submitAll]
  | cons t ts ih =>
    simp only [List.length_cons] at hcap
    have hs : ThreadPool.submit t p =
        (PushResult.accepted { p.queue_ with queue_ := p.queue_.queue_ ++ [t] },
          { p with queue_ := { p.queue_ with queue_ := p.queue_.queue_ ++ [t] } }) := by
      have : ¬ p.queue_.max_size_ ≤ p.queue_.queue_.length := by omega
      simp [ThreadPool.submit, SafeQueue.push, hv, this]
    have := ih { p with queue_ := { p.queue_ with queue_ := p.queue_.queue_ ++ [t] } } hv
      (by simp only [List.length_append, List.length_singleton]; omega)
    simp only [acceptsAll, submitAll, hs]
    simpa [List.append_assoc] using this

theorem le_sum_of_mem {l : List Nat} {x : Nat} (h : x ∈ l) : x ≤ l.sum := by
  induction l with
  | nil => simp at h
  | cons a rest ih =>
    rcases List.mem_cons.mp h with rfl | h1
    · simp
    · have := ih h1
      simp only [List.sum_cons]
      omega

theorem runOps_length (ops : List Op) (p : ThreadPool) :
    (runOps ops p).threads_.length = p.threads_.length := by
  induction ops generalizing p with
  | nil => rfl
  | cons o rest ih =>
    cases o with
    | step i => simp only [runOps, applyOp, ih, stepThread_length]
    | submit t =>
      simp only [runOps, applyOp, ih]
      unfold ThreadPool.submit
      split <;> rfl

/-- In a quiescent fault-free state that satisfies the invariant every worker
is idle: before its loop, at the loop head, or at `pop`. -/
theorem inv_quiescent_idle (p : ThreadPool) (h : Inv p) (he : p.exception_ptr_ = none)
    (hr : p.run_cnt_ = 0) :
    p.done_ = false ∧ p.queue_.valid_ = true ∧
      ∀ w ∈ p.threads_, w.pc = Pc.init ∨ w.pc = Pc.loopHead ∨ w.pc = Pc.popping := by
  obtain ⟨hd, hfault, hloop, hcount⟩ := h
  have hv : p.queue_.valid_ = true := by
    cases hpv : p.queue_.valid_ with
    | true => rfl
    | false => have := hfault hpv; simp [he] at this
  obtain ⟨hc, hnf⟩ := hcount hv
  refine ⟨hd, hv, ?_⟩
  intro w hw
  have h0 : w.inFlight = 0 := by
    have hle : w.inFlight ≤ p.inFlight :=
      le_sum_of_mem (List.mem_map_of_mem Worker.inFlight hw)
    rw [hr] at hc
    omega
  have h1 := hloop w hw
  have h2 := hnf w hw
  cases hpc : w.pc with
  | init => simp
  | loopHead => simp
  | popping => simp
  | executing t => simp [Worker.inFlight, hpc] at h0
  | finishing t =>
    cases t with
    | none => exact absurd hpc h2
    | some t => simp [Worker.inFlight, hpc] at h0
  | finalizing => exact absurd hpc h1.1
  | terminated => exact absurd hpc h1.2

/-- C9: the state in which `wait` returns is one of the states it woke up in,
handed back as it is: `wait` writes no member, and on a single state it
either blocks or returns that very state.  If the state was reached
from a freshly constructed pool by worker actions and submissions and holds no
fault, then the pool is not done, its queue is valid and empty and `run_cnt_`
is zero; a second batch of succeeding tasks that fits the queue is accepted
task by task, and once any thread `i` has performed `2 + 4 * n` actions
`wait` returns again: no fault, queue empty, `run_cnt_` zero, pool still not
done and queue still valid, the tasks of the batch run in order by thread `i`. -/
theorem wait_is_pure_barrier (obs : List ThreadPool) (p : ThreadPool)
    (hwait : ThreadPool.wait obs = some p) :
    p ∈ obs ∧
    (∀ q q' : ThreadPool, ThreadPool.wait [q] = some q' → q' = q) ∧
    ∀ (n cap : Nat) (initf finf : Bool) (ops : List Op) (ts : List Task) (i : Nat),
      p = runOps ops (ThreadPool.fresh n cap initf finf) → p.exception_ptr_ = none →
      i < n → ts.length ≤ p.queue_.max_size_ → (∀ t ∈ ts, t.raises = none) →
      p.done_ = false ∧ p.queue_.valid_ = true ∧ p.queue_.queue_ = [] ∧ p.run_cnt_ = 0 ∧
      acceptsAll ts p = true ∧ (submitAll ts p).queue_.queue_ = ts ∧
      ThreadPool.wait [afterBatch i ts p] = some (afterBatch i ts p) ∧
      (afterBatch i ts p).exception_ptr_ = none ∧ (afterBatch i ts p).done_ = false ∧
      (afterBatch i ts p).queue_.valid_ = true ∧ (afterBatch i ts p).queue_.queue_ = [] ∧
      (afterBatch i ts p).run_cnt_ = 0 ∧
      ∃ w base, (afterBatch i ts p).threads_[i]? = some w ∧
        w.log = base ++ ts.flatMap taskEvents := by
  obtain ⟨hmem, hpred⟩ := wait_some hwait
  refine ⟨hmem, fun q q' hq => by simpa using (wait_some hq).1, ?_⟩
  intro n cap initf finf ops ts i hreach he hi hcap hok
  have hinv : Inv p := hreach ▸ runOps_inv ops _ (fresh_inv n cap initf finf)
  have hlen : p.threads_.length = n := by
    rw [hreach, runOps_length]
    simp [ThreadPool.fresh]
  have hquiet : p.queue_.queue_ = [] ∧ p.run_cnt_ = 0 := by
    simp only [waitPredicate, he, Option.isSome_none, Bool.false_or, Bool.and_eq_true,
      beq_iff_eq] at hpred
    exact ⟨by simpa [SafeQueue.empty] using hpred.1, hpred.2⟩
  obtain ⟨hd, hv, hidle⟩ := inv_quiescent_idle p hinv he hquiet.2
  obtain ⟨hacc, hsub⟩ := submitAll_accepted ts p hv (by rw [hquiet.1]; simpa using hcap)
  rw [hquiet.1, List.nil_append] at hsub
  have hw : p.threads_[i]? = some p.threads_[i] := List.getElem?_eq_getElem (hlen ▸ hi)
  obtain ⟨base, hat⟩ := idle_processes_batch i (submitAll ts p) ts p.threads_[i]
    (by rw [hsub]; exact hd) (by rw [hsub]; exact hv) (by rw [hsub]) (by rw [hsub]; exact hquiet.2)
    (by rw [hsub]; exact he) (by rw [hsub]; exact hw)
    (hidle _ (List.getElem?_mem hw)) hok
  obtain ⟨hd2, hv2, hq2, hr2, he2, w2, hw2, _, hlog2⟩ := hat
  refine ⟨hd, hv, hquiet.1, hquiet.2, hacc, by rw [hsub], ?_, he2, hd2, hv2, hq2, hr2,
    w2, base, hw2, hlog2⟩
  simp only [afterBatch, ThreadPool.wait, waitPredicate, SafeQueue.empty, hq2, hr2]
  simp

theorem wait_is_pure_barrier_witness :
    ThreadPool.wait [firstBatchRunning, firstBatchDone] = some firstBatchDone ∧
    firstBatchDone ∈ [firstBatchRunning, firstBatchDone] ∧
    (∀ q q' : ThreadPool, ThreadPool.wait [q] = some q' → q' = q) ∧
    (firstBatchDone = runOps firstBatchOps (ThreadPool.fresh 2 2 true true) ∧
      firstBatchDone.exception_ptr_ = none ∧ 1 < 2 ∧
      [taskOk 3, taskOk 4].length ≤ firstBatchDone.queue_.max_size_ ∧
      (∀ t ∈ [taskOk 3, taskOk 4], t.raises = none)) ∧
    (firstBatchDone.done_ = false ∧ firstBatchDone.queue_.valid_ = true ∧
      firstBatchDone.queue_.queue_ = [] ∧ firstBatchDone.run_cnt_ = 0 ∧
      acceptsAll [taskOk 3, taskOk 4] firstBatchDone = true ∧
      (submitAll [taskOk 3, taskOk 4] firstBatchDone).queue_.queue_ = [taskOk 3, taskOk 4] ∧
      ThreadPool.wait [afterBatch 1 [taskOk 3, taskOk 4] firstBatchDone] =
        some (afterBatch 1 [taskOk 3, taskOk 4] firstBatchDone) ∧
      (afterBatch 1 [taskOk 3, taskOk 4] firstBatchDone).exception_ptr_ = none ∧
      (afterBatch 1 [taskOk 3, taskOk 4] firstBatchDone).done_ = false ∧
      (afterBatch 1 [taskOk 3, taskOk 4] firstBatchDone).queue_.valid_ = true ∧
      (afterBatch 1 [taskOk 3, taskOk 4] firstBatchDone).queue_.queue_ = [] ∧
      (afterBatch 1 [taskOk 3, taskOk 4] firstBatchDone).run_cnt_ = 0 ∧
      ∃ w base, (afterBatch 1 [taskOk 3, taskOk 4] firstBatchDone).threads_[1]? = some w ∧
        w.log = base ++ [taskOk 3, taskOk 4].flatMap taskEvents) :=
  ⟨by rfl,
    (wait_is_pure_barrier [firstBatchRunning, firstBatchDone] firstBatchDone (by rfl)).1,
    (wait_is_pure_barrier [firstBatchRunning, firstBatchDone] firstBatchDone (by rfl)).2.1,
    ⟨by rfl, by rfl, by decide, by decide, by decide⟩,
    (wait_is_pure_barrier [firstBatchRunning, firstBatchDone] firstBatchDone (by rfl)).2.2
      2 2 true true firstBatchOps [taskOk 3, taskOk 4] 1 (by rfl) (by rfl) (by decide)
      (by decide) (by decide)⟩

/-- Without spawn failure and before any thread has moved, the constructor
yields the fresh pool. -/
theorem spawnLoop_fresh (fuel : Nat) (initf finf : Bool) (k i0 : Nat) (p : ThreadPool) :
    spawnLoop fuel initf finf (fun _ => none) (fun _ => []) k i0 p =
      some ({ p with threads_ := p.threads_ ++ List.replicate k (Worker.spawned initf finf),
                     run_cnt_ := 0 }, none) := by
  induction k generalizing i0 p with
  | zero => simp [spawnLoop]
  | succ k ih =>
    simp only [spawnLoop, runSteps, ih]
    simp [List.replicate_succ]

theorem constructor_fresh (fuel n cap : Nat) (initf finf : Bool) :
    ThreadPool.constructor fuel n cap initf finf (fun _ => none) (fun _ => []) =
      some (ThreadPool.fresh n cap initf finf, none) := by
  simp [ThreadPool.constructor, spawnLoop_fresh, ThreadPool.fresh, ThreadPool.members]

/-! ## Teardown while no task throws -/

theorem worker_step_quiet (p : ThreadPool) (w : Worker)
    (hw : ∀ t, w.pc = Pc.executing t → t.raises = none)
    (hq : ∀ t ∈ p.queue_.queue_, t.raises = none) :
    (worker_step p w).1.exception_ptr_ = p.exception_ptr_ ∧
      (∀ t, (worker_step p w).2.pc = Pc.executing t → t.raises = none) ∧
      (∀ t ∈ (worker_step p w).1.queue_.queue_, t.raises = none) := by
  unfold worker_step
  split
  · exact ⟨rfl, by simp, hq⟩
  · split <;> exact ⟨rfl, by simp, hq⟩
  · split
    · exact ⟨rfl, hw, hq⟩
    · exact ⟨rfl, by simp, hq⟩
    · rename_i t q hpop
      have hp := pop_success hpop
      refine ⟨rfl, ?_, ?_⟩
      · intro t' ht'
        simp only [Pc.executing.injEq] at ht'
        subst ht'
        exact hq t (by rw [hp.1]; exact List.mem_cons_self _ _)
      · intro t' ht'
        simp only [increase_run_cnt_func] at ht'
        exact hq t' (by rw [hp.1]; exact List.mem_cons_of_mem _ ht')
  · rename_i t hpc
    split
    · exact ⟨rfl, by simp, hq⟩
    · rename_i e he
      rw [hw t hpc] at he
      cases he
  · exact ⟨rfl, by simp, hq⟩
  · exact ⟨rfl, by simp, hq⟩
  · exact ⟨rfl, hw, hq⟩

theorem stepThread_quiet (i : Nat) (p : ThreadPool) (h : Quiet p) :
    Quiet (stepThread i p) ∧ (stepThread i p).exception_ptr_ = p.exception_ptr_ := by
  cases hw : p.threads_[i]? with
  | none => rw [stepThread_of_none hw]; exact ⟨h, rfl⟩
  | some w =>
    obtain ⟨h1, h2, h3⟩ := worker_step_quiet p w (h.1 w (List.getElem?_mem hw)) h.2
    rw [stepThread_of_some hw]
    refine ⟨⟨?_, h3⟩, h1⟩
    intro w2 hw2 t ht
    simp only [worker_step_threads] at hw2
    rcases List.mem_or_eq_of_mem_set hw2 with hm | hm
    · exact h.1 w2 hm t ht
    · rw [hm] at ht; exact h2 t ht

theorem runThread_quiet (fuel i : Nat) (p p' : ThreadPool) (h : runThread fuel i p = some p')
    (hq : Quiet p) : Quiet p' ∧ p'.exception_ptr_ = p.exception_ptr_ := by
  induction fuel generalizing p with
  | zero =>
    simp only [runThread] at h
    split at h
    · cases h; exact ⟨hq, rfl⟩
    · cases h
  | succ f ih =>
    simp only [runThread] at h
    split at h
    · cases h; exact ⟨hq, rfl⟩
    · obtain ⟨h1, h2⟩ := stepThread_quiet i p hq
      obtain ⟨h3, h4⟩ := ih _ h h1
      exact ⟨h3, h4.trans h2⟩

theorem markJoined_quiet (i : Nat) (p : ThreadPool) (h : Quiet p) :
    Quiet (markJoined i p) ∧ (markJoined i p).exception_ptr_ = p.exception_ptr_ := by
  unfold markJoined
  split
  · exact ⟨h, rfl⟩
  · rename_i w hw
    refine ⟨⟨?_, h.2⟩, rfl⟩
    intro w2 hw2 t ht
    rcases List.mem_or_eq_of_mem_set hw2 with hm | hm
    · exact h.1 w2 hm t ht
    · rw [hm] at ht
      exact h.1 w (List.getElem?_mem hw) t ht

theorem joinAll_quiet (fuel : Nat) (is : List Nat) (p p' : ThreadPool)
    (h : joinAll fuel is p = some p') (hq : Quiet p) :
    Quiet p' ∧ p'.exception_ptr_ = p.exception_ptr_ := by
  induction is generalizing p with
  | nil =>
    simp only [joinAll, Option.some.injEq] at h
    subst h
    exact ⟨hq, rfl⟩
  | cons i rest ih =>
    simp only [joinAll] at h
    split at h
    · exact ih p h hq
    · split at h
      · cases hr : runThread fuel i p with
        | none => simp [join, hr] at h
        | some q =>
          simp only [join, hr, Option.map_some', Option.some_bind] at h
          obtain ⟨h1, h2⟩ := runThread_quiet fuel i p q hr hq
          obtain ⟨h3, h4⟩ := markJoined_quiet i q h1
          obtain ⟨h5, h6⟩ := ih _ h h3
          exact ⟨h5, h6.trans (h4.trans h2)⟩
      · exact ih p h hq

/-- A teardown during which no task throws leaves `exception_ptr_` as it was. -/
theorem destroy_quiet (fuel : Nat) (p p' : ThreadPool)
    (h : ThreadPool.destroy fuel p = some p') (hq : Quiet p) :
    p'.exception_ptr_ = p.exception_ptr_ := by
  unfold ThreadPool.destroy at h
  exact (joinAll_quiet fuel _ _ p' h ⟨hq.1, hq.2⟩).2

/-- What `checkException` does in every pool state: it returns (five actions
per join suffice); it raises exactly when `exception_ptr_` is set; when it raises, `done_` is true, the
queue is invalid, every thread that was joinable has terminated and none is
joinable any more, and the exception raised is the content of
`exception_ptr_` when `destroy` has returned, handed on as it is, which is the
content at the call whenever no task run during the teardown throws; when
`exception_ptr_` is empty the pool is returned unchanged and nothing is
raised. -/
theorem checkException_teardown (fuel : Nat) (p : ThreadPool) (hf : 5 ≤ fuel) :
    ∃ p' r, ThreadPool.checkException fuel p = some (p', r) ∧
      (r.isSome = true ↔ p.exception_ptr_.isSome = true) ∧
      (p.exception_ptr_.isSome = true →
        p'.done_ = true ∧ p'.queue_.valid_ = false ∧
        (∀ w ∈ p'.threads_, w.joinable = false) ∧
        (∀ (j : Nat) (w : Worker), p.threads_[j]? = some w → w.joinable = true →
          ∃ w', p'.threads_[j]? = some w' ∧ w'.pc = Pc.terminated) ∧
        r = p'.exception_ptr_ ∧ (Quiet p → r = p.exception_ptr_)) ∧
      (p.exception_ptr_ = none → p' = p ∧ r = none) := by
  cases hep : p.exception_ptr_ with
  | none =>
    refine ⟨p, none, by simp [ThreadPool.checkException, hep], by simp, by simp, by simp⟩
  | some e =>
    obtain ⟨p', hp'⟩ := destroy_returns fuel p hf
    obtain ⟨hd, hv, _, hfault, hth⟩ := destroy_result fuel p p' hp'
    have hs : p'.exception_ptr_.isSome = true := hfault (by simp [hep])
    refine ⟨p', p'.exception_ptr_, by simp [ThreadPool.checkException, hep, hp'],
      by simp [hs], ?_, by simp⟩
    intro _
    refine ⟨hd, hv, destroy_not_joinable fuel p p' hp', ?_, rfl,
      fun hq => (destroy_quiet fuel p p' hp' hq).trans hep⟩
    intro j w hw hj
    obtain ⟨w', hw', _, hjoined, _⟩ := hth j w hw
    exact ⟨w', hw', (hjoined hj).1⟩

theorem checkException_teardown_example :
    5 ≤ 5 ∧
      ∃ p' r, ThreadPool.checkException 5 afterThreeFaults = some (p', r) ∧
        (r.isSome = true ↔ afterThreeFaults.exception_ptr_.isSome = true) ∧
        (afterThreeFaults.exception_ptr_.isSome = true →
          p'.done_ = true ∧ p'.queue_.valid_ = false ∧
          (∀ w ∈ p'.threads_, w.joinable = false) ∧
          (∀ (j : Nat) (w : Worker), afterThreeFaults.threads_[j]? = some w →
            w.joinable = true → ∃ w', p'.threads_[j]? = some w' ∧ w'.pc = Pc.terminated) ∧
          r = p'.exception_ptr_ ∧
          (Quiet afterThreeFaults → r = afterThreeFaults.exception_ptr_)) ∧
        (afterThreeFaults.exception_ptr_ = none → p' = afterThreeFaults ∧ r = none) :=
  ⟨by decide, checkException_teardown 5 afterThreeFaults (by decide)⟩

/-! ## Strip coordinates -/

theorem static_cast_int_lt (u : Nat) : static_cast_int u < 2 ^ 31 := by
  unfold static_cast_int
  split <;> omega

theorem static_cast_int_small {u : Nat} (h : u < 2 ^ 31) : static_cast_int u = (u : Int) := by
  unfold static_cast_int
  have : u % 2 ^ 32 = u := Nat.mod_eq_of_lt (by omega)
  rw [this, if_pos (by omega)]

theorem static_cast_unsigned_small {y : Int} (h0 : 0 ≤ y) (h1 : y < 2 ^ 31) :
    static_cast_unsigned y = y.toNat := by
  unfold static_cast_unsigned
  rw [Int.emod_eq_of_lt h0 (by omega)]

/-- The method `isWithinMatrix` by cases: no access below row 0, from the row
count on, or left of column 0; otherwise the checked access decides. -/
theorem isWithinMatrix_cases (m : RadialStripDetectorModel) (x y : Int) :
    m.isWithinMatrix x y =
      if 0 ≤ y ∧ y < static_cast_int m.n_pixels_y ∧ 0 ≤ x then
        match m.number_of_strips_[y.toNat]? with
        | some n => Except.ok (decide (x < static_cast_int n))
        | none => Except.error StdException.out_of_range
      else Except.ok false := by
  unfold RadialStripDetectorModel.isWithinMatrix
  by_cases hy : y < 0
  · have : ¬ (0 ≤ y ∧ y < static_cast_int m.n_pixels_y ∧ 0 ≤ x) := fun h => by omega
    simp [hy, this]
  · by_cases hr : y ≥ static_cast_int m.n_pixels_y
    · have : ¬ (0 ≤ y ∧ y < static_cast_int m.n_pixels_y ∧ 0 ≤ x) := fun h => by omega
      simp [hy, hr, this]
    · by_cases hx : x < 0
      · have : ¬ (0 ≤ y ∧ y < static_cast_int m.n_pixels_y ∧ 0 ≤ x) := fun h => by omega
        simp [hy, hr, hx, this]
      · have hall : 0 ≤ y ∧ y < static_cast_int m.n_pixels_y ∧ 0 ≤ x := by omega
        have hlt := static_cast_int_lt m.n_pixels_y
        have hidx : static_cast_unsigned y = y.toNat :=
          static_cast_unsigned_small hall.1 (by omega)
        simp only [hy, hr, hx, hall, if_false, if_true, and_self, hidx, vector_at]
        cases hn : m.number_of_strips_[y.toNat]? with
        | none => rfl
        | some n =>
          simp only [ge_iff_le]
          by_cases hc : x < static_cast_int n
          · have : ¬ static_cast_int n ≤ x := by omega
            simp [hc, this]
          · have : static_cast_int n ≤ x := by omega
            simp [hc, this]

/-- C11 (the claim fails here): with two rows and a strip count for the first
only, row 1 is a valid row number (`0 ≤ 1 < getNPixels().y() = 2`) without an
entry in `number_of_strips_`, and `isWithinMatrix(0, 1)` returns neither
`true` nor `false`: the checked access raises `std::out_of_range`.  With one
row of `2^31` strips, `0 ≤ 0 < 2^31` and yet `isWithinMatrix(0, 0)` is
`false`, the count being negative as an `int`. -/
theorem isWithinMatrix_raises_on_missing_row :
    twoRowsOneCount.n_pixels_y = 2 ∧ twoRowsOneCount.number_of_strips_ = [5] ∧
      twoRowsOneCount.isWithinMatrix 0 1 = Except.error StdException.out_of_range ∧
      twoRowsOneCount.isWithinMatrix 0 1 ≠ Except.ok true ∧
      twoRowsOneCount.isWithinMatrix 0 1 ≠ Except.ok false ∧
      hugeRow.n_pixels_y = 1 ∧ hugeRow.number_of_strips_ = [2 ^ 31] ∧
      hugeRow.isWithinMatrix 0 0 = Except.ok false := by
  have h : twoRowsOneCount.isWithinMatrix 0 1 = Except.error StdException.out_of_range := by
    rfl
  refine ⟨rfl, rfl, h, ?_, ?_, rfl, rfl, by rfl⟩
  · rw [h]; exact fun e => by cases e
  · rw [h]; exact fun e => by cases e

/-- C11 (amended): for all ints `x` and `y`, `isWithinMatrix(x, y)` returns
`true` exactly when `0 ≤ y < int(getNPixels().y())`, `0 ≤ x` and
`number_of_strips_` has an entry for row `y` with `x < int(number_of_strips_[y])`;
it raises `std::out_of_range` exactly when `0 ≤ y < int(getNPixels().y())`,
`0 ≤ x` and `number_of_strips_` has no entry for row `y`; it returns `false`
exactly when `y < 0`, or `y ≥ int(getNPixels().y())`, or `x < 0`, or the entry
exists and `x ≥ int(number_of_strips_[y])`.  When the row count and all strip
counts are below `2^31` and every row has an entry, it never raises and
returns whether `0 ≤ y < getNPixels().y()` and `0 ≤ x < number_of_strips_[y]`. -/
theorem isWithinMatrix_checked (m : RadialStripDetectorModel) (x y : Int) :
    (m.isWithinMatrix x y = Except.ok true ↔
      0 ≤ y ∧ y < static_cast_int m.n_pixels_y ∧ 0 ≤ x ∧
        ∃ n, m.number_of_strips_[y.toNat]? = some n ∧ x < static_cast_int n) ∧
    (m.isWithinMatrix x y = Except.error StdException.out_of_range ↔
      0 ≤ y ∧ y < static_cast_int m.n_pixels_y ∧ 0 ≤ x ∧
        m.number_of_strips_[y.toNat]? = none) ∧
    (m.isWithinMatrix x y = Except.ok false ↔
      y < 0 ∨ static_cast_int m.n_pixels_y ≤ y ∨ x < 0 ∨
        ∃ n, m.number_of_strips_[y.toNat]? = some n ∧ static_cast_int n ≤ x) ∧
    (m.n_pixels_y < 2 ^ 31 → (∀ n ∈ m.number_of_strips_, n < 2 ^ 31) →
      m.n_pixels_y ≤ m.number_of_strips_.length →
      m.isWithinMatrix x y =
        Except.ok (decide (0 ≤ y ∧ y < (m.n_pixels_y : Int) ∧ 0 ≤ x ∧
          x < ((m.number_of_strips_.getD y.toNat 0 : Nat) : Int)))) := by
  rw [isWithinMatrix_cases]
  by_cases hc : 0 ≤ y ∧ y < static_cast_int m.n_pixels_y ∧ 0 ≤ x
  · rw [if_pos hc]
    obtain ⟨h0, h1, h2⟩ := hc
    cases hn : m.number_of_strips_[y.toNat]? with
    | none =>
      refine ⟨by simp [h0, h1, h2], by simp [h0, h1, h2], ?_, ?_⟩
      · constructor
        · intro h; cases h
        · rintro (h | h | h | ⟨n, hn', _⟩)
          · omega
          · omega
          · omega
          · cases hn'
      · intro hp _ hlen
        exfalso
        rw [static_cast_int_small hp] at h1
        have : y.toNat < m.number_of_strips_.length := by omega
        rw [List.getElem?_eq_getElem this] at hn
        cases hn
    | some n =>
      refine ⟨?_, by simp, ?_, ?_⟩
      · simp [h0, h1, h2]
      · constructor
        · intro h
          simp only [Except.ok.injEq, decide_eq_false_iff_not, not_lt] at h
          exact Or.inr (Or.inr (Or.inr ⟨n, rfl, h⟩))
        · rintro (h | h | h | ⟨n', hn', hle⟩)
          · omega
          · omega
          · omega
          · cases hn'
            simp only [Except.ok.injEq, decide_eq_false_iff_not, not_lt]
            exact hle
      · intro hp hs _
        have hmem : n ∈ m.number_of_strips_ := List.getElem?_mem hn
        rw [static_cast_int_small hp] at h1
        have hget : m.number_of_strips_.getD y.toNat 0 = n := by
          simp [List.getD, hn]
        rw [hget]
        simp only [static_cast_int_small (hs n hmem)]
        simp [h0, h1, h2]
  · rw [if_neg hc]
    refine ⟨?_, ?_, ?_, ?_⟩
    · constructor
      · intro h; cases h
      · rintro ⟨h0, h1, h2, _⟩; exact absurd ⟨h0, h1, h2⟩ hc
    · constructor
      · intro h; cases h
      · rintro ⟨h0, h1, h2, _⟩; exact absurd ⟨h0, h1, h2⟩ hc
    · constructor
      · intro _
        by_cases hy : y < 0
        · exact Or.inl hy
        · by_cases hr : static_cast_int m.n_pixels_y ≤ y
          · exact Or.inr (Or.inl hr)
          · exact Or.inr (Or.inr (Or.inl (by
              by_contra hx
              exact hc ⟨by omega, by omega, by omega⟩)))
      · intro _; rfl
    · intro hp _ _
      rw [static_cast_int_small hp] at hc
      have : ¬ (0 ≤ y ∧ y < (m.n_pixels_y : Int) ∧ 0 ≤ x ∧
          x < ((m.number_of_strips_.getD y.toNat 0 : Nat) : Int)) :=
        fun h => hc ⟨h.1, h.2.1, h.2.2.1⟩
      rw [decide_eq_false this]

theorem isWithinMatrix_checked_witness :
    (threeRows.n_pixels_y < 2 ^ 31 ∧ (∀ n ∈ threeRows.number_of_strips_, n < 2 ^ 31) ∧
      threeRows.n_pixels_y ≤ threeRows.number_of_strips_.length) ∧
    threeRows.isWithinMatrix 7 2 =
      Except.ok (decide (0 ≤ (2 : Int) ∧ (2 : Int) < (threeRows.n_pixels_y : Int) ∧
        0 ≤ (7 : Int) ∧
        (7 : Int) < ((threeRows.number_of_strips_.getD (2 : Int).toNat 0 : Nat) : Int))) :=
  ⟨⟨by decide, by decide, by decide⟩,
    (isWithinMatrix_checked threeRows 7 2).2.2.2 (by decide) (by decide) (by decide)⟩

/-! ## One increment and one decrement per iteration -/

theorem worker_step_quiet_flag (p : ThreadPool) (w : Worker)
    (hw : ∀ t, w.pc = Pc.executing t → t.raises = none) :
    (worker_step p w).1.has_exception_ = p.has_exception_ := by
  unfold worker_step
  split
  · rfl
  · split <;> rfl
  · split <;> rfl
  · rename_i t hpc
    split
    · rfl
    · rename_i e he
      rw [hw t hpc] at he
      cases he
  · rfl
  · rfl
  · rfl

theorem worker_step_tally (p : ThreadPool) (w : Worker)
    (hw : ∀ t, w.pc = Pc.executing t → t.raises = none)
    (h : w.dequeued = w.ran + w.pending) :
    (worker_step p w).2.dequeued = (worker_step p w).2.ran + (worker_step p w).2.pending := by
  unfold worker_step
  split
  · rename_i hpc
    simp only [Worker.dequeued, Worker.ran, Worker.pending, hpc] at h ⊢
    cases w.init_function <;> simp [List.countP_append, Event.isDequeue, Event.isRan, h]
  · rename_i hpc
    simp only [Worker.dequeued, Worker.ran, Worker.pending, hpc] at h ⊢
    split <;> simpa using h
  · rename_i hpc
    simp only [Worker.dequeued, Worker.ran, Worker.pending, hpc] at h ⊢
    split
    · simpa [hpc] using h
    · simpa [List.countP_append, Event.isDequeue, Event.isRan] using h
    · dsimp only
      rw [List.countP_append, List.countP_append]
      have e1 : List.countP Event.isDequeue [Event.popOk (‹Task›).id] = 1 := rfl
      have e2 : List.countP Event.isRan [Event.popOk (‹Task›).id] = 0 := rfl
      omega
  · rename_i t hpc
    simp only [Worker.dequeued, Worker.ran, Worker.pending, hpc] at h ⊢
    split
    · dsimp only
      rw [List.countP_append, List.countP_append]
      have e1 : List.countP Event.isDequeue [Event.ran t.id] = 0 := rfl
      have e2 : List.countP Event.isRan [Event.ran t.id] = 1 := rfl
      omega
    · rename_i e he
      rw [hw t hpc] at he
      cases he
  · rename_i t hpc
    simp only [Worker.dequeued, Worker.ran, Worker.pending, hpc] at h ⊢
    simpa using h
  · rename_i hpc
    simp only [Worker.dequeued, Worker.ran, Worker.pending, hpc] at h ⊢
    cases w.finalize_function <;> simp [List.countP_append, Event.isDequeue, Event.isRan, h]
  · exact h

theorem stepThread_clean (i : Nat) (p : ThreadPool) (h : Clean p) : Clean (stepThread i p) := by
  obtain ⟨hq, he, hf⟩ := h
  obtain ⟨hq', he'⟩ := stepThread_quiet i p hq
  refine ⟨hq', he'.trans he, ?_⟩
  cases hw : p.threads_[i]? with
  | none => rw [stepThread_of_none hw]; exact hf
  | some w =>
    rw [stepThread_of_some hw]
    exact (worker_step_quiet_flag p w (hq.1 w (List.getElem?_mem hw))).trans hf

theorem stepThread_tallied (i : Nat) (p : ThreadPool) (hq : Quiet p) (h : Tallied p) :
    Tallied (stepThread i p) := by
  cases hw : p.threads_[i]? with
  | none => rw [stepThread_of_none hw]; exact h
  | some w =>
    have hwm : w ∈ p.threads_ := List.getElem?_mem hw
    intro w2 hw2
    rw [stepThread_of_some hw] at hw2
    simp only [worker_step_threads] at hw2
    rcases List.mem_or_eq_of_mem_set hw2 with hm | hm
    · exact h w2 hm
    · rw [hm]
      exact worker_step_tally p w (hq.1 w hwm) (h w hwm)

theorem submit_clean (t : Task) (p : ThreadPool) (ht : t.raises = none) (h : Clean p) :
    Clean (ThreadPool.submit t p).2 ∧
      (ThreadPool.submit t p).2.threads_ = p.threads_ := by
  unfold ThreadPool.submit SafeQueue.push
  split
  · rename_i q hq
    split at hq
    · cases hq
    · split at hq
      · cases hq
      · simp only [PushResult.accepted.injEq] at hq
        subst hq
        obtain ⟨⟨h1, h2⟩, he, hf⟩ := h
        refine ⟨⟨⟨h1, ?_⟩, he, hf⟩, rfl⟩
        intro t' ht'
        rcases List.mem_append.mp ht' with hm | hm
        · exact h2 t' hm
        · rw [List.mem_singleton.mp hm]; exact ht
  · exact ⟨h, rfl⟩

theorem fresh_clean (n cap : Nat) (initf finf : Bool) :
    Clean (ThreadPool.fresh n cap initf finf) ∧ Tallied (ThreadPool.fresh n cap initf finf) := by
  refine ⟨⟨⟨?_, ?_⟩, rfl, rfl⟩, ?_⟩
  · intro w hw t ht
    simp only [ThreadPool.fresh, List.mem_replicate] at hw
    rw [hw.2] at ht
    simp [Worker.spawned] at ht
  · intro t ht
    simp [ThreadPool.fresh, ThreadPool.members] at ht
  · intro w hw
    simp only [ThreadPool.fresh, List.mem_replicate] at hw
    rw [hw.2]
    rfl

/-- Worker actions and submissions of succeeding tasks record no fault and
keep every worker's tally. -/
theorem runOps_clean (ops : List Op) (p : ThreadPool) (hok : ops.all Op.succeeds = true)
    (h : Clean p) (ht : Tallied p) : Clean (runOps ops p) ∧ Tallied (runOps ops p) := by
  induction ops generalizing p with
  | nil => exact ⟨h, ht⟩
  | cons o rest ih =>
    simp only [List.all_cons, Bool.and_eq_true] at hok
    cases o with
    | step i =>
      exact ih _ hok.2 (stepThread_clean i p h) (stepThread_tallied i p h.1 ht)
    | submit t =>
      have hr : t.raises = none := by simpa [Op.succeeds] using hok.1
      obtain ⟨hc, hth⟩ := submit_clean t p hr h
      refine ih _ hok.2 hc ?_
      intro w hw
      simp only [applyOp, hth] at hw
      exact ht w hw

theorem sum_map_congr (f g : Worker → Nat) (l : List Worker) (h : ∀ w ∈ l, f w = g w) :
    (l.map f).sum = (l.map g).sum := by
  induction l with
  | nil => rfl
  | cons a rest ih =>
    simp only [List.map_cons, List.sum_cons]
    rw [h a (List.mem_cons_self _ _), ih (fun w hw => h w (List.mem_cons_of_mem _ hw))]

theorem wakeups_append (xs ys : List Nat) (p : ThreadPool) :
    wakeups (xs ++ ys) p = wakeups xs p ++ wakeups ys (runSteps xs p) := by
  induction xs generalizing p with
  | nil => rfl
  | cons i rest ih =>
    simp only [List.cons_append, wakeups, runSteps]
    split <;> simp [ih]

/-- One loop iteration of thread `i` on a succeeding task wakes `wait` once,
right after the decrement: the rest of the batch is still queued and nothing
is in flight. -/
theorem atPop_iteration_wakeup (i : Nat) (p : ThreadPool) (t : Task) (ts : List Task)
    (base : List Event) (h : AtPop i p (t :: ts) base) (ht : t.raises = none) :
    ∃ q, wakeups (List.replicate 4 i) p = [q] ∧ q.queue_.queue_ = ts ∧ q.run_cnt_ = 0 ∧
      q.exception_ptr_ = none := by
  obtain ⟨hd, hv, hq, hr, he, w, hw, hpc, hlog⟩ := h
  have hlt := getElem?_lt hw
  cases w with
  | mk pc initf finf jn js log =>
    simp only at hpc hlog
    subst hpc hlog
    refine ⟨runSteps (List.replicate 3 i) p, ?_, ?_, ?_, ?_⟩
    · simp [List.replicate, wakeups, runSteps, threadNotifies, Worker.notifies, stepThread, hw,
        hlt, worker_step, SafeQueue.pop, hq, increase_run_cnt_func, hr, ht, hd]
    · simp [List.replicate, runSteps, stepThread, hw, hlt, worker_step, SafeQueue.pop, hq,
        increase_run_cnt_func, hr, ht, hd]
    · simp [List.replicate, runSteps, stepThread, hw, hlt, worker_step, SafeQueue.pop, hq,
        increase_run_cnt_func, hr, ht, hd]
    · simp [List.replicate, runSteps, stepThread, hw, hlt, worker_step, SafeQueue.pop, hq,
        increase_run_cnt_func, hr, ht, hd, he]

/-- While thread `i` processes a batch of `n ≥ 1` succeeding tasks, `wait` is
woken `n` times, once per task, and returns at the last wake-up: queue empty,
`run_cnt_` zero, no fault. -/
theorem atPop_batch_wait (i : Nat) (ts : List Task) (p : ThreadPool) (base : List Event)
    (h : AtPop i p ts base) (hne : ts ≠ []) (hok : ∀ t ∈ ts, t.raises = none) :
    (wakeups (List.replicate (4 * ts.length) i) p).length = ts.length ∧
      ∃ q, ThreadPool.wait (wakeups (List.replicate (4 * ts.length) i) p) = some q ∧
        q.queue_.queue_ = [] ∧ q.run_cnt_ = 0 ∧ q.exception_ptr_ = none := by
  induction ts generalizing p base with
  | nil => exact absurd rfl hne
  | cons t ts ih =>
    have h4 : 4 * (t :: ts).length = 4 + 4 * ts.length := by
      simp only [List.length_cons]; omega
    have ht := hok t (List.mem_cons_self _ _)
    obtain ⟨q, hwk, hq, hr, he⟩ := atPop_iteration_wakeup i p t ts base h ht
    have hnext := atPop_iteration i p t ts base h ht
    rw [h4, List.replicate_add, wakeups_append, hwk]
    cases ts with
    | nil =>
      simp only [List.length_nil, Nat.mul_zero, List.replicate_zero, wakeups, List.append_nil,
        List.length_singleton, List.length_cons, Nat.zero_add, true_and]
      refine ⟨q, ?_, hq, hr, he⟩
      simp [ThreadPool.wait, waitPredicate, SafeQueue.empty, hq, hr]
    | cons t2 ts2 =>
      obtain ⟨hlen, q2, hwait, hrest⟩ := ih _ _ hnext (by simp)
        (fun t' ht' => hok t' (List.mem_cons_of_mem _ ht'))
      refine ⟨by rw [List.length_append, hlen]; simp; omega, q2, ?_, hrest⟩
      have hpred : waitPredicate q = false := by
        simp [waitPredicate, SafeQueue.empty, hq, he]
      simp only [List.singleton_append, ThreadPool.wait, hpred]
      simpa using hwait

theorem runOps_append (xs ys : List Op) (p : ThreadPool) :
    runOps (xs ++ ys) p = runOps ys (runOps xs p) := by
  induction xs generalizing p with
  | nil => rfl
  | cons o rest ih => simp [runOps, ih]

theorem runOps_submits (ts : List Task) (p : ThreadPool) :
    runOps (ts.map Op.submit) p = submitAll ts p := by
  induction ts generalizing p with
  | nil => rfl
  | cons t rest ih => simp [runOps, applyOp, submitAll, ih]

theorem runOps_steps (i k : Nat) (p : ThreadPool) :
    runOps (steps i k) p = runSteps (List.replicate k i) p := by
  induction k generalizing p with
  | zero => rfl
  | succ k ih => simp [steps, List.replicate_succ, runOps, applyOp, runSteps, ← ih]

/-- For every `k`, on a fresh pool with at least one worker and room for `k`
tasks, `k` no-op tasks are accepted and processed, after which `wait`
returns: queue empty, `run_cnt_` zero, no fault, all tasks run by thread 0. -/
theorem noop_batch_done (workers k : Nat) (initf finf : Bool) :
    ThreadPool.wait [runOps (noopOps k) (ThreadPool.fresh (workers + 1) k initf finf)] =
        some (runOps (noopOps k) (ThreadPool.fresh (workers + 1) k initf finf)) ∧
      (runOps (noopOps k) (ThreadPool.fresh (workers + 1) k initf finf)).run_cnt_ = 0 ∧
      (runOps (noopOps k) (ThreadPool.fresh (workers + 1) k initf finf)).exception_ptr_
        = none ∧
      (runOps (noopOps k) (ThreadPool.fresh (workers + 1) k initf finf)).queue_.queue_ = [] ∧
      ∃ w base, (runOps (noopOps k)
          (ThreadPool.fresh (workers + 1) k initf finf)).threads_[0]? = some w ∧
        w.log = base ++ (noopTasks k).flatMap taskEvents := by
  have hlen : (noopTasks k).length = k := by simp [noopTasks]
  have hall : ∀ t ∈ noopTasks k, t.raises = none := by
    intro t ht
    simp only [noopTasks, List.mem_map] at ht
    obtain ⟨j, _, rfl⟩ := ht
    rfl
  have hsub := (submitAll_accepted (noopTasks k) (ThreadPool.fresh (workers + 1) k initf finf)
    rfl (by simp [ThreadPool.fresh, ThreadPool.members, hlen])).2
  have hrun : runOps (noopOps k) (ThreadPool.fresh (workers + 1) k initf finf) =
      runSteps (List.replicate (2 + 4 * (noopTasks k).length) 0)
        (submitAll (noopTasks k) (ThreadPool.fresh (workers + 1) k initf finf)) := by
    rw [noopOps, runOps_append, runOps_submits, runOps_steps, hlen]
  obtain ⟨base, hat⟩ := idle_processes_batch 0
    (submitAll (noopTasks k) (ThreadPool.fresh (workers + 1) k initf finf)) (noopTasks k)
    (Worker.spawned initf finf)
    (by rw [hsub]; rfl) (by rw [hsub]; rfl)
    (by rw [hsub]; simp [ThreadPool.fresh, ThreadPool.members])
    (by rw [hsub]; rfl) (by rw [hsub]; rfl)
    (by rw [hsub]; simp [ThreadPool.fresh, List.replicate_succ])
    (Or.inl rfl) hall
  rw [hrun]
  obtain ⟨_, _, hq, hr, he, w, hw, _, hlog⟩ := hat
  refine ⟨?_, hr, he, hq, w, base, hw, hlog⟩
  simp [ThreadPool.wait, waitPredicate, SafeQueue.empty, hq, hr]

theorem inFlight_zero_pending {w : Worker} (h : w.inFlight = 0) : w.pending = 0 := by
  cases hpc : w.pc <;> simp [Worker.inFlight, Worker.pending, hpc] at h ⊢

/-- C12: an iteration whose `pop` succeeds consists of three actions, whatever
the other threads do to the members in between: the `pop` increments
`run_cnt_` by one; running the task leaves `run_cnt_` as it is and continues
at the end of the iteration whether the task returns or throws; the end of
the iteration decrements `run_cnt_` by one, notifies `wait` and returns to the
loop head.  Hence in every state worker actions and submissions of succeeding
tasks reach from a fresh pool no fault is recorded, `run_cnt_` is the number
of tasks in flight, and once none is in flight `run_cnt_` is zero and every
dequeued task has been run; for every `k` such a run of `k` no-op tasks
exists, after which `wait` returns; and while one worker processes a batch of
`n` succeeding tasks, `wait` is woken once per task and returns at the last
wake-up. -/
theorem iteration_balances_run_cnt (n cap : Nat) (initf finf : Bool) (ops : List Op)
    (hok : ops.all Op.succeeds = true) :
    (∀ (p : ThreadPool) (w : Worker) (t : Task) (q : SafeQueue),
      w.pc = Pc.popping → p.queue_.pop = PopResult.success t q →
        (worker_step p w).1.run_cnt_ = p.run_cnt_ + 1 ∧
        (worker_step p w).2.pc = Pc.executing t ∧ w.notifies = false) ∧
    (∀ (p : ThreadPool) (w : Worker) (t : Task), w.pc = Pc.executing t →
        (worker_step p w).1.run_cnt_ = p.run_cnt_ ∧
        (worker_step p w).2.pc = Pc.finishing (some t) ∧ w.notifies = false) ∧
    (∀ (p : ThreadPool) (w : Worker) (t : Task), w.pc = Pc.finishing (some t) →
        (worker_step p w).1.run_cnt_ = p.run_cnt_ - 1 ∧
        (worker_step p w).2.pc = Pc.loopHead ∧ w.notifies = true) ∧
    ((runOps ops (ThreadPool.fresh n cap initf finf)).exception_ptr_ = none ∧
      (runOps ops (ThreadPool.fresh n cap initf finf)).has_exception_ = false ∧
      (runOps ops (ThreadPool.fresh n cap initf finf)).queue_.valid_ = true ∧
      (runOps ops (ThreadPool.fresh n cap initf finf)).run_cnt_ =
        ((runOps ops (ThreadPool.fresh n cap initf finf)).inFlight : Int) ∧
      Tallied (runOps ops (ThreadPool.fresh n cap initf finf)) ∧
      ((runOps ops (ThreadPool.fresh n cap initf finf)).inFlight = 0 →
        (runOps ops (ThreadPool.fresh n cap initf finf)).run_cnt_ = 0 ∧
        ((runOps ops (ThreadPool.fresh n cap initf finf)).threads_.map Worker.dequeued).sum =
          ((runOps ops (ThreadPool.fresh n cap initf finf)).threads_.map Worker.ran).sum)) ∧
    (∀ workers k : Nat,
      ThreadPool.wait [runOps (noopOps k) (ThreadPool.fresh (workers + 1) k initf finf)] =
        some (runOps (noopOps k) (ThreadPool.fresh (workers + 1) k initf finf)) ∧
      (runOps (noopOps k) (ThreadPool.fresh (workers + 1) k initf finf)).run_cnt_ = 0 ∧
      (runOps (noopOps k) (ThreadPool.fresh (workers + 1) k initf finf)).exception_ptr_
        = none ∧
      ∃ w base, (runOps (noopOps k)
          (ThreadPool.fresh (workers + 1) k initf finf)).threads_[0]? = some w ∧
        w.log = base ++ (noopTasks k).flatMap taskEvents) ∧
    (∀ (i : Nat) (ts : List Task) (p : ThreadPool) (base : List Event),
      AtPop i p ts base → ts ≠ [] → (∀ t ∈ ts, t.raises = none) →
        (wakeups (List.replicate (4 * ts.length) i) p).length = ts.length ∧
        ∃ q, ThreadPool.wait (wakeups (List.replicate (4 * ts.length) i) p) = some q ∧
          q.queue_.queue_ = [] ∧ q.run_cnt_ = 0 ∧ q.exception_ptr_ = none) := by
  refine ⟨?_, ?_, ?_, ?_, ?_, ?_⟩
  · intro p w t q hpc hpop
    simp [worker_step, hpc, hpop, increase_run_cnt_func, Worker.notifies]
  · intro p w t hpc
    cases hr : t.raises <;>
      simp [worker_step, hpc, hr, catch_handler_run_cnt, Worker.notifies]
  · intro p w t hpc
    simp [worker_step, hpc, Worker.notifies]
  · have hinv := runOps_inv ops _ (fresh_inv n cap initf finf)
    obtain ⟨hclean, htal⟩ := runOps_clean ops _ hok (fresh_clean n cap initf finf).1
      (fresh_clean n cap initf finf).2
    obtain ⟨_, he, hf⟩ := hclean
    obtain ⟨_, hfault, _, hcount⟩ := hinv
    have hv : (runOps ops (ThreadPool.fresh n cap initf finf)).queue_.valid_ = true := by
      cases hpv : (runOps ops (ThreadPool.fresh n cap initf finf)).queue_.valid_ with
      | true => rfl
      | false => have := hfault hpv; simp [he] at this
    refine ⟨he, hf, hv, (hcount hv).1, htal, ?_⟩
    intro h0
    refine ⟨by rw [(hcount hv).1, h0]; rfl, ?_⟩
    apply sum_map_congr
    intro w hw
    have hle : w.inFlight ≤ (runOps ops (ThreadPool.fresh n cap initf finf)).inFlight :=
      le_sum_of_mem (List.mem_map_of_mem Worker.inFlight hw)
    have hp := inFlight_zero_pending (show w.inFlight = 0 by omega)
    rw [htal w hw, hp, Nat.add_zero]
  · intro workers k
    obtain ⟨h1, h2, h3, _, h5⟩ := noop_batch_done workers k initf finf
    exact ⟨h1, h2, h3, h5⟩
  · intro i ts p base hat hne hall
    exact atPop_batch_wait i ts p base hat hne hall

theorem iteration_balances_run_cnt_witness :
    firstBatchOps.all Op.succeeds = true ∧
    ((∀ (p : ThreadPool) (w : Worker) (t : Task) (q : SafeQueue),
      w.pc = Pc.popping → p.queue_.pop = PopResult.success t q →
        (worker_step p w).1.run_cnt_ = p.run_cnt_ + 1 ∧
        (worker_step p w).2.pc = Pc.executing t ∧ w.notifies = false) ∧
    (∀ (p : ThreadPool) (w : Worker) (t : Task), w.pc = Pc.executing t →
        (worker_step p w).1.run_cnt_ = p.run_cnt_ ∧
        (worker_step p w).2.pc = Pc.finishing (some t) ∧ w.notifies = false) ∧
    (∀ (p : ThreadPool) (w : Worker) (t : Task), w.pc = Pc.finishing (some t) →
        (worker_step p w).1.run_cnt_ = p.run_cnt_ - 1 ∧
        (worker_step p w).2.pc = Pc.loopHead ∧ w.notifies = true) ∧
    ((runOps firstBatchOps (ThreadPool.fresh 2 2 true true)).exception_ptr_ = none ∧
      (runOps firstBatchOps (ThreadPool.fresh 2 2 true true)).has_exception_ = false ∧
      (runOps firstBatchOps (ThreadPool.fresh 2 2 true true)).queue_.valid_ = true ∧
      (runOps firstBatchOps (ThreadPool.fresh 2 2 true true)).run_cnt_ =
        ((runOps firstBatchOps (ThreadPool.fresh 2 2 true true)).inFlight : Int) ∧
      Tallied (runOps firstBatchOps (ThreadPool.fresh 2 2 true true)) ∧
      ((runOps firstBatchOps (ThreadPool.fresh 2 2 true true)).inFlight = 0 →
        (runOps firstBatchOps (ThreadPool.fresh 2 2 true true)).run_cnt_ = 0 ∧
        ((runOps firstBatchOps (ThreadPool.fresh 2 2 true true)).threads_.map
            Worker.dequeued).sum =
          ((runOps firstBatchOps (ThreadPool.fresh 2 2 true true)).threads_.map Worker.ran).sum)) ∧
    (∀ workers k : Nat,
      ThreadPool.wait [runOps (noopOps k) (ThreadPool.fresh (workers + 1) k true true)] =
        some (runOps (noopOps k) (ThreadPool.fresh (workers + 1) k true true)) ∧
      (runOps (noopOps k) (ThreadPool.fresh (workers + 1) k true true)).run_cnt_ = 0 ∧
      (runOps (noopOps k) (ThreadPool.fresh (workers + 1) k true true)).exception_ptr_
        = none ∧
      ∃ w base, (runOps (noopOps k)
          (ThreadPool.fresh (workers + 1) k true true)).threads_[0]? = some w ∧
        w.log = base ++ (noopTasks k).flatMap taskEvents) ∧
    (∀ (i : Nat) (ts : List Task) (p : ThreadPool) (base : List Event),
      AtPop i p ts base → ts ≠ [] → (∀ t ∈ ts, t.raises = none) →
        (wakeups (List.replicate (4 * ts.length) i) p).length = ts.length ∧
        ∃ q, ThreadPool.wait (wakeups (List.replicate (4 * ts.length) i) p) = some q ∧
          q.queue_.queue_ = [] ∧ q.run_cnt_ = 0 ∧ q.exception_ptr_ = none)) :=
  ⟨by decide, iteration_balances_run_cnt 2 2 true true firstBatchOps (by decide)⟩

/-- C5 (the code at the failing input): with fault 22 stored in
`exception_ptr_` and a third worker still running a task that throws 33,
`wait` returns and `checkException` tears the pool down and raises, but the
exception it raises is 33, not the stored 22: the worker joined during
`destroy` overwrites the slot before `rethrow_exception` reads it. -/
theorem checkException_raises_overwritten_fault :
    secondFaultStored.exception_ptr_ = some 22 ∧
      secondFaultStored.has_exception_ = true ∧
      secondFaultStored.threads_.map Worker.pc =
        [Pc.popping, Pc.popping, Pc.executing (taskThrow 3 33)] ∧
      ThreadPool.wait [secondFaultStored] = some secondFaultStored ∧
      (ThreadPool.checkException 5 secondFaultStored).map Prod.snd = some (some 33) ∧
      (ThreadPool.checkException 5 secondFaultStored).map (fun r => r.1.exception_ptr_)
        = some (some 33) ∧
      (ThreadPool.checkException 5 secondFaultStored).map (fun r => r.1.done_) = some true ∧
      (ThreadPool.checkException 5 secondFaultStored).map
          (fun r => r.1.threads_.map Worker.pc)
        = some [Pc.terminated, Pc.terminated, Pc.terminated] := by
  refine ⟨by rfl, by rfl, by rfl, by rfl, by rfl, by rfl, by rfl, by rfl⟩

end allpix
